import Mathlib

/-!
# Verification of the frame-wise FFT watermark encoder

Shallow embedding of `src/encoder.rs` (and, where the repository's decoder
module is referenced but absent from the sources, a model built from the
specification).  Audio samples and spectral components are modelled as exact
rationals; machine `u8`/`u16` values are natural numbers with explicit
`% 2^w` where the source performs a narrowing cast.
-/

/- ============================================================
   Constants (src/encoder.rs lines 12-28)
   ============================================================ -/

/-- `PILOT_PATTERN: [u8; 8] = [0, 1, 0, 1, 0, 1, 0, 1]`. -/
def PILOT_PATTERN : List ℕ := [0, 1, 0, 1, 0, 1, 0, 1]

/-- `WATERMARK_FRAME_DURATION: f32 = 0.02`. -/
def WATERMARK_FRAME_DURATION : ℚ := 1 / 50

/-- `SAMPLE_DIVISOR: f32 = 32768.0`. -/
def SAMPLE_DIVISOR : ℚ := 32768

/-- `SAMPLE_MULTIPLIER: f32 = 32767.0`. -/
def SAMPLE_MULTIPLIER : ℚ := 32767

/-- `START_BIN: usize = 10`. -/
def START_BIN : ℕ := 10

/-- `WATERMARK_STRENGTH: f32 = 0.15`. -/
def WATERMARK_STRENGTH : ℚ := 3 / 20

/- ============================================================
   Step 2: build_bit_sequence (src/encoder.rs lines 98-133)
   ============================================================ -/

/-- One pass of `for shift in (0..w).rev() { bits.push((n >> shift) & 1) }`:
the low `w` bits of `n`, most significant first. -/
def natToBitsBE (w n : ℕ) : List ℕ :=
  (List.range w).reverse.map (fun shift => (n >>> shift) &&& 1)

/-- The payload loop of `build_bit_sequence`: each byte expanded to 8 bits,
most significant first, in message order. -/
def bytesToBits : List ℕ → List ℕ
  | [] => []
  | b :: rest => natToBitsBE 8 b ++ bytesToBits rest

/-- `build_bit_sequence` from src/encoder.rs: pilot pattern, then the 16-bit
length header (`message_bytes.len() as u16`, a narrowing cast modelled by
`% 65536`, MSB first), then the payload bytes MSB first. -/
def build_bit_sequence (message : List ℕ) : List ℕ :=
  PILOT_PATTERN ++ natToBitsBE 16 (message.length % 65536) ++ bytesToBits message

/-- MSB-first reassembly of a bit list into a natural number (used by the
decoder model to parse the length header and payload bytes). -/
def bitsToNat (bs : List ℕ) : ℕ := bs.foldl (fun a b => 2 * a + b) 0

/- ============================================================
   Step 4: quantize_to_i16 (src/encoder.rs lines 218-229)

   f32 values are modelled as exact rationals plus the special
   values NaN and the two infinities, so that the totality claim
   covers non-finite samples as well.
   ============================================================ -/

/-- Model of an `f32` sample: a finite value (exact rational) or one of the
special values NaN, +inf, -inf. -/
inductive FVal where
  | nan : FVal
  | posInf : FVal
  | negInf : FVal
  | fin : ℚ → FVal
deriving DecidableEq

/-- Rust `f32::clamp(lo, hi)` with finite bounds: NaN propagates, +inf goes
to `hi`, -inf goes to `lo`, finite values are clamped. -/
def fclamp (v : FVal) (lo hi : ℚ) : FVal :=
  match v with
  | .nan => .nan
  | .posInf => .fin hi
  | .negInf => .fin lo
  | .fin q => .fin (max lo (min q hi))

/-- Multiplication of an `f32` by a positive finite constant. -/
def fmulPos (v : FVal) (c : ℚ) : FVal :=
  match v with
  | .nan => .nan
  | .posInf => .posInf
  | .negInf => .negInf
  | .fin q => .fin (q * c)

/-- Rust `f32::round`: round half away from zero. -/
def rustRound (q : ℚ) : ℤ :=
  if 0 ≤ q then ⌊q + 1 / 2⌋ else ⌈q - 1 / 2⌉

/-- `f32::round` lifted to the `f32` model (specials are fixed points). -/
def fround (v : FVal) : FVal :=
  match v with
  | .fin q => .fin ((rustRound q : ℤ) : ℚ)
  | x => x

/-- Truncation toward zero of a rational, as in Rust float-to-int casts. -/
def ratTrunc (q : ℚ) : ℤ :=
  if 0 ≤ q then ⌊q⌋ else ⌈q⌉

/-- Rust `as i16` applied to an `f32`: saturating cast, NaN maps to 0. -/
def fToI16 (v : FVal) : ℤ :=
  match v with
  | .nan => 0
  | .posInf => 32767
  | .negInf => -32768
  | .fin q => max (-32768) (min 32767 (ratTrunc q))

/-- The per-sample body of `quantize_to_i16`:
`(sample.clamp(-1.0, 1.0) * SAMPLE_MULTIPLIER).round()` followed by
`scaled.clamp(i16::MIN as f32, i16::MAX as f32) as i16`. -/
def quantizeOne (v : FVal) : ℤ :=
  fToI16 (fclamp (fround (fmulPos (fclamp v (-1) 1) SAMPLE_MULTIPLIER)) (-32768) 32767)

/-- `quantize_to_i16` from src/encoder.rs: map the per-sample body over the
encoded buffer. -/
def quantize_to_i16 (encoded : List FVal) : List ℤ :=
  encoded.map quantizeOne

/-- The per-sample normalization of `load_and_normalize_audio`
(src/encoder.rs line 77): `(sample as f32) / SAMPLE_DIVISOR`. -/
def normalizeSample (x : ℤ) : ℚ := (x : ℚ) / SAMPLE_DIVISOR

/- ============================================================
   Step 3: embed_watermark_fft (src/encoder.rs lines 139-212)
   ============================================================ -/

/-- Frame length (src/encoder.rs lines 141-143):
`((sample_rate as f32 * WATERMARK_FRAME_DURATION).round().max(1.0)) as usize`. -/
def frameLen (sample_rate : ℕ) : ℕ :=
  (max (rustRound ((sample_rate : ℚ) * WATERMARK_FRAME_DURATION)) 1).toNat

/-- Fuel-driven doubling loop behind `usize::next_power_of_two`: keep doubling
`power` while it is below `n`. -/
def nextPow2Aux : ℕ → ℕ → ℕ → ℕ
  | 0, _, power => power
  | fuel + 1, n, power => if power < n then nextPow2Aux fuel n (power * 2) else power

/-- Rust `usize::next_power_of_two`: the smallest power of two that is
greater than or equal to the argument (1 for argument 0).  `n` steps of
doubling from 1 always suffice because `n < 2 ^ n`. -/
def next_power_of_two (n : ℕ) : ℕ := nextPow2Aux n n 1

/-- Transform length (src/encoder.rs line 144):
`frame_len.next_power_of_two().max(2)`. -/
def fftLen (sample_rate : ℕ) : ℕ := max (next_power_of_two (frameLen sample_rate)) 2

/-- The FFT input buffer of one frame (src/encoder.rs lines 168-169):
`buffer.fill(0.0); buffer[..chunk.len()].copy_from_slice(chunk)` on a buffer
of `fft_len` zeros. -/
def padTo (L : ℕ) (chunk : List ℚ) : List ℚ :=
  chunk ++ List.replicate (L - chunk.length) 0

/-- The scale factor of one embedded bit (src/encoder.rs lines 183-187):
`1.0 + WATERMARK_STRENGTH` if the bit is 1, else `1.0 - WATERMARK_STRENGTH`. -/
def scaleOf (bit : ℕ) : ℚ :=
  if bit = 1 then 1 + WATERMARK_STRENGTH else 1 - WATERMARK_STRENGTH

/-- One iteration of the embedding loop (src/encoder.rs lines 180-191):
rescale both components of bin `START_BIN + i` by the scale of bit `i`. -/
def embedStep (bits : List ℕ) (sp : List (ℚ × ℚ)) (i : ℕ) : List (ℚ × ℚ) :=
  sp.set (START_BIN + i)
    ((sp.getD (START_BIN + i) (0, 0)).1 * scaleOf (bits.getD i 0),
     (sp.getD (START_BIN + i) (0, 0)).2 * scaleOf (bits.getD i 0))

/-- The per-frame embedding loop (src/encoder.rs lines 176-191):
`bits_to_encode = bits.len().min(spectrum.len().saturating_sub(START_BIN))`
iterations of `embedStep`. -/
def embedFrame (bits : List ℕ) (spectrum : List (ℚ × ℚ)) : List (ℚ × ℚ) :=
  (List.range (min bits.length (spectrum.length - START_BIN))).foldl
    (embedStep bits) spectrum

/-- The body of one iteration of the frame loop (src/encoder.rs lines
163-203): pad the chunk, forward transform, embed, inverse transform, keep
`chunk.len()` samples and divide each by `fft_len`.  The forward and inverse
transforms are parameters standing for the external `realfft` plans. -/
def processFrame (forward : List ℚ → List (ℚ × ℚ)) (inverse : List (ℚ × ℚ) → List ℚ)
    (bits : List ℕ) (L : ℕ) (chunk : List ℚ) : List ℚ :=
  ((inverse (embedFrame bits (forward (padTo L chunk)))).take chunk.length).map
    (fun x => x / (L : ℚ))

/-- Fuel-driven form of the `while offset < normalized.len()` loop of
src/encoder.rs lines 162-204; the fuel is instantiated with the buffer length,
which always suffices because each iteration consumes at least one sample. -/
def frameLoopAux (p : List ℚ → List ℚ) (flen : ℕ) : ℕ → List ℚ → List ℚ
  | _, [] => []
  | 0, _ :: _ => []
  | fuel + 1, x :: rest =>
    p ((x :: rest).take flen) ++ frameLoopAux p flen fuel (rest.drop (flen - 1))

/-- The frame loop: apply `p` to consecutive chunks of `flen` samples. -/
def frameLoop (p : List ℚ → List ℚ) (flen : ℕ) (l : List ℚ) : List ℚ :=
  frameLoopAux p flen l.length l

/-- `embed_watermark_fft` from src/encoder.rs, with the external FFT plans
abstracted as function parameters. -/
def embed_watermark_fft (forward : List ℚ → List (ℚ × ℚ))
    (inverse : List (ℚ × ℚ) → List ℚ) (normalized : List ℚ) (bits : List ℕ)
    (sample_rate : ℕ) : List ℚ :=
  frameLoop (processFrame forward inverse bits (fftLen sample_rate))
    (frameLen sample_rate) normalized

/-- The encode pipeline at codec level (steps 2 and 3 of `encode_sample`):
build the bit sequence and embed it. -/
def encode (forward : List ℚ → List (ℚ × ℚ)) (inverse : List (ℚ × ℚ) → List ℚ)
    (audio : List ℚ) (message : List ℕ) (sample_rate : ℕ) : List ℚ :=
  embed_watermark_fft forward inverse audio (build_bit_sequence message) sample_rate

/- ============================================================
   Frame segmentation, described explicitly (spec section 4.2)
   ============================================================ -/

/-- Fuel-driven chunk list: the frames the frame loop visits, in order. -/
def chunksOfAux (flen : ℕ) : ℕ → List ℚ → List (List ℚ)
  | _, [] => []
  | 0, _ :: _ => []
  | fuel + 1, x :: rest =>
    (x :: rest).take flen :: chunksOfAux flen fuel (rest.drop (flen - 1))

/-- The consecutive non-overlapping chunks of `flen` samples covering `l`. -/
def chunksOf (flen : ℕ) (l : List ℚ) : List (List ℚ) :=
  chunksOfAux flen l.length l

/-- Concatenation of a list of chunks. -/
def concatAll : List (List ℚ) → List ℚ
  | [] => []
  | c :: cs => c ++ concatAll cs

/- ============================================================
   Decoder model.

   src/main.rs refers to a module `decoder`
   (`decoder::decode_watermarked_sample`) whose source file is not
   present in the repository snapshot, so the decoder is modelled
   from the specification (spec sections 2 and 4.5).
   ============================================================ -/

/-- Modelled from the spec: the per-bin detection statistic of the missing
decoder module; section 4.5 allows "a magnitude (or energy) value per bin",
modelled as the energy so it stays rational. -/
def binEnergy (c : ℚ × ℚ) : ℚ := c.1 * c.1 + c.2 * c.2

/-- Modelled from the spec: the energies of one frame's usable bins (bins at
or above the start index), in bin order. -/
def frameEnergies (forward : List ℚ → List (ℚ × ℚ)) (L : ℕ) (chunk : List ℚ) :
    List ℚ :=
  ((forward (padTo L chunk)).drop START_BIN).map binEnergy

/-- Modelled from the spec: the bin-scan sequence of detection statistics,
frame by frame in temporal order, using the same frame segmentation and
transform length derivation as the encoder. -/
def decodeEnergies (forward : List ℚ → List (ℚ × ℚ)) (samples : List ℚ)
    (sample_rate : ℕ) : List ℚ :=
  concatAll ((chunksOf (frameLen sample_rate) samples).map
    (frameEnergies forward (fftLen sample_rate)))

/-- Modelled from the spec: threshold calibration (spec section 4.5 step 2),
the midpoint between the mean statistic of the bins the pilot marks as 1
(bin-scan positions 1, 3, 5, 7) and the mean of those it marks as 0
(positions 0, 2, 4, 6). -/
def calibrateThreshold (es : List ℚ) : ℚ :=
  ((es.getD 1 0 + es.getD 3 0 + es.getD 5 0 + es.getD 7 0) / 4 +
   (es.getD 0 0 + es.getD 2 0 + es.getD 4 0 + es.getD 6 0) / 4) / 2

/-- Modelled from the spec: the decoder of the missing module
(`decoder::decode_watermarked_sample` at codec level).  Calibrate the
threshold from the pilot positions, classify every later bin (above the
threshold means bit 1), parse the 16-bit big-endian length header, then
regroup the next 8·N classified bits into N bytes.  Returns `none` when the
classified stream cannot satisfy the header (spec: TruncatedWatermark). -/
def decode_watermarked (forward : List ℚ → List (ℚ × ℚ)) (samples : List ℚ)
    (sample_rate : ℕ) : Option (List ℕ) :=
  let es := decodeEnergies forward samples sample_rate
  let thr := calibrateThreshold es
  let stream := (es.drop PILOT_PATTERN.length).map
    (fun e => if thr < e then (1 : ℕ) else 0)
  if 16 ≤ stream.length then
    let n := bitsToNat (stream.take 16)
    if 8 * n ≤ (stream.drop 16).length then
      some ((List.range n).map
        (fun k => bitsToNat (((stream.drop 16).drop (8 * k)).take 8)))
    else none
  else none

/- ============================================================
   A concrete transform pair satisfying the documented contract
   of the external `realfft` plans (spec section 4.3): forward
   maps a length-L frame to ⌊L/2⌋+1 complex bins, inverse maps
   the bins back to L samples scaled by L.  Used to instantiate
   the abstract transform parameters in concrete scenarios.
   ============================================================ -/

/-- Modelled from the spec: a concrete stand-in for the external forward
transform plan, mapping a frame of length L to ⌊L/2⌋+1 complex bins (a linear
pairing of samples; the spec constrains only the shape of the transform, and
this instance also satisfies the inverse-scaling contract used below). -/
def toyForward (v : List ℚ) : List (ℚ × ℚ) :=
  (List.range (v.length / 2 + 1)).map
    (fun k => if 2 * k + 1 < v.length then (v.getD (2 * k) 0, v.getD (2 * k + 1) 0)
      else (0, 0))

/-- Modelled from the spec: the matching inverse transform plan, mapping
⌊L/2⌋+1 bins back to L samples scaled by L (spec section 4.3: the inverse
result must be divided by the transform length exactly once). -/
def toyInverse (s : List (ℚ × ℚ)) : List ℚ :=
  (List.range (2 * (s.length - 1))).map
    (fun t => ((2 * (s.length - 1) : ℕ) : ℚ) *
      (if t % 2 = 0 then (s.getD (t / 2) (0, 0)).1 else (s.getD (t / 2) (0, 0)).2))

/- ============================================================
   Supporting lemmas for the bit layer
   ============================================================ -/

theorem natToBitsBE_length (w n : ℕ) : (natToBitsBE w n).length = w := by
  simp [natToBitsBE]

theorem natToBitsBE_succ (w n : ℕ) :
    natToBitsBE (w + 1) n = ((n >>> w) &&& 1) :: natToBitsBE w n := by
  simp [natToBitsBE, List.range_succ]

theorem bytesToBits_length (l : List ℕ) : (bytesToBits l).length = 8 * l.length := by
  induction l with
  | nil => simp [bytesToBits]
  | cons b rest ih => simp [bytesToBits, natToBitsBE_length, ih]; ring

theorem bitsToNat_foldl (bs : List ℕ) (a : ℕ) :
    bs.foldl (fun a b => 2 * a + b) a = a * 2 ^ bs.length + bitsToNat bs := by
  induction bs generalizing a with
  | nil => simp [bitsToNat]
  | cons b rest ih =>
    have h1 := ih (2 * a + b)
    have h2 := ih (2 * 0 + b)
    simp only [bitsToNat, List.foldl_cons] at h1 h2 ⊢
    rw [h1, h2, List.length_cons, pow_succ]
    ring

theorem bitsToNat_cons (b : ℕ) (bs : List ℕ) :
    bitsToNat (b :: bs) = b * 2 ^ bs.length + bitsToNat bs := by
  have h := bitsToNat_foldl bs (2 * 0 + b)
  simp only [bitsToNat, List.foldl_cons] at h ⊢
  rw [h]
  ring

theorem bitsToNat_natToBitsBE (w n : ℕ) :
    bitsToNat (natToBitsBE w n) = n % 2 ^ w := by
  induction w with
  | zero => simp [natToBitsBE, bitsToNat, Nat.mod_one]
  | succ w ih =>
    rw [natToBitsBE_succ, bitsToNat_cons, natToBitsBE_length, ih]
    have hshift : n >>> w = n / 2 ^ w := Nat.shiftRight_eq_div_pow n w
    have hand : (n >>> w) &&& 1 = (n >>> w) % 2 := Nat.and_one_is_mod _
    rw [hand, hshift]
    have hmul : (2 : ℕ) ^ (w + 1) = 2 ^ w * 2 := by rw [pow_succ]
    rw [hmul, Nat.mod_mul]
    ring

/- ============================================================
   Claim theorems: C2 and C5
   ============================================================ -/

/-- Claim C2: for every message of at most 65535 bytes, `build_bit_sequence`
returns the 8-bit alternating pilot pattern, then the 16-bit big-endian
payload byte count, then each payload byte MSB first, for a total of
`8 + 16 + 8 * n` bits; and the message "AB" (bytes 65, 66) yields the
concrete 40-bit sequence pilot ++ 0000000000000010 ++ 01000001 01000010. -/
theorem build_bit_sequence_spec :
    (∀ message : List ℕ, message.length ≤ 65535 →
      build_bit_sequence message =
        [0, 1, 0, 1, 0, 1, 0, 1] ++ natToBitsBE 16 message.length ++ bytesToBits message ∧
      (build_bit_sequence message).length = 8 + 16 + 8 * message.length) ∧
    build_bit_sequence [65, 66] =
      [0, 1, 0, 1, 0, 1, 0, 1] ++
        [0, 0, 0, 0, 0, 0, 0, 0, 0, 0, 0, 0, 0, 0, 1, 0] ++
        [0, 1, 0, 0, 0, 0, 0, 1, 0, 1, 0, 0, 0, 0, 1, 0] := by
  constructor
  · intro message hlen
    have hmod : message.length % 65536 = message.length :=
      Nat.mod_eq_of_lt (by omega)
    constructor
    · unfold build_bit_sequence
      rw [hmod]
      rfl
    · unfold build_bit_sequence
      rw [hmod]
      simp only [List.length_append, natToBitsBE_length, bytesToBits_length]
      have hp : PILOT_PATTERN.length = 8 := rfl
      rw [hp]
  · decide

/-- Witness for C2 at the concrete message "AB" = bytes [65, 66]. -/
theorem build_bit_sequence_spec_witness :
    build_bit_sequence [65, 66] =
      [0, 1, 0, 1, 0, 1, 0, 1] ++ natToBitsBE 16 ([65, 66] : List ℕ).length ++
        bytesToBits [65, 66] ∧
    (build_bit_sequence [65, 66]).length = 8 + 16 + 8 * ([65, 66] : List ℕ).length :=
  build_bit_sequence_spec.1 [65, 66] (by decide)

/-- Claim C5 (code evidence): the code does NOT reject a 65536-byte message.
`message_bytes.len() as u16` silently truncates, so the emitted bit sequence
carries a length header of 65536 % 65536 = 0: the first 24 bits are the pilot
followed by sixteen zero bits, and the payload is still appended in full. -/
theorem build_bit_sequence_truncates_at_65536 :
    (build_bit_sequence (List.replicate 65536 0)).take 24 =
      PILOT_PATTERN ++ List.replicate 16 0 ∧
    (build_bit_sequence (List.replicate 65536 0)).length = 24 + 8 * 65536 := by
  have hlen : (List.replicate 65536 (0 : ℕ)).length = 65536 := by
    rw [List.length_replicate]
  have hmod : (List.replicate 65536 (0 : ℕ)).length % 65536 = 0 := by
    rw [hlen]
  have hheader : natToBitsBE 16 ((List.replicate 65536 (0 : ℕ)).length % 65536) =
      List.replicate 16 0 := by
    rw [hmod]; decide
  constructor
  · unfold build_bit_sequence
    rw [hheader]
    have hlen24 : (PILOT_PATTERN ++ List.replicate 16 (0 : ℕ)).length = 24 := by decide
    exact List.take_left' hlen24
  · unfold build_bit_sequence
    rw [hheader]
    simp only [List.length_append, bytesToBits_length, List.length_replicate, hlen]
    have hp : PILOT_PATTERN.length = 8 := rfl
    rw [hp]

/- ============================================================
   Quantizer lemmas
   ============================================================ -/

theorem rustRound_dist (q : ℚ) : |(rustRound q : ℚ) - q| ≤ 1 / 2 := by
  unfold rustRound
  split
  · rw [abs_le]
    constructor
    · have h := Int.lt_floor_add_one (q + 1 / 2)
      push_cast at h ⊢
      linarith
    · have h := Int.floor_le (q + 1 / 2)
      push_cast at h ⊢
      linarith
  · rw [abs_le]
    constructor
    · have h := Int.le_ceil (q - 1 / 2)
      push_cast at h ⊢
      linarith
    · have h := Int.ceil_lt_add_one (q - 1 / 2)
      push_cast at h ⊢
      linarith

theorem abs_rustRound_le {q : ℚ} {b : ℤ} (h : |q| ≤ (b : ℚ)) :
    |rustRound q| ≤ b := by
  have hd := rustRound_dist q
  have hq : |(rustRound q : ℚ)| ≤ (b : ℚ) + 1 / 2 := by
    calc |(rustRound q : ℚ)| = |((rustRound q : ℚ) - q) + q| := by ring_nf
    _ ≤ |(rustRound q : ℚ) - q| + |q| := abs_add _ _
    _ ≤ 1 / 2 + (b : ℚ) := add_le_add hd h
    _ = (b : ℚ) + 1 / 2 := by ring
  have hlt : |rustRound q| < b + 1 := by
    have hcast : (((|rustRound q| : ℤ)) : ℚ) < ((b + 1 : ℤ) : ℚ) := by
      rw [Int.cast_abs]
      push_cast
      linarith
    exact_mod_cast hcast
  omega

theorem ratTrunc_intCast (r : ℤ) : ratTrunc (r : ℚ) = r := by
  unfold ratTrunc
  split
  · exact Int.floor_intCast r
  · exact Int.ceil_intCast r

theorem rustRound_intCast (z : ℤ) : rustRound ((z : ℤ) : ℚ) = z := by
  unfold rustRound
  split
  · refine Int.floor_eq_iff.2 ⟨?_, ?_⟩ <;> push_cast <;> linarith
  · refine Int.ceil_eq_iff.2 ⟨?_, ?_⟩ <;> push_cast <;> linarith

theorem fchain_round (m : ℚ) (hm : |m| ≤ ((32767 : ℤ) : ℚ)) :
    fToI16 (fclamp (fround (FVal.fin m)) (-32768) 32767) = rustRound m := by
  have hrb : |rustRound m| ≤ 32767 := abs_rustRound_le hm
  set r := rustRound m with hrdef
  have hr2 : r ≤ 32767 := by
    have := abs_le.1 hrb
    omega
  have hr1 : (-32768 : ℤ) ≤ r := by
    have := abs_le.1 hrb
    omega
  have hcast1 : ((r : ℤ) : ℚ) ≤ 32767 := by exact_mod_cast hr2
  have hcast2 : (-32768 : ℚ) ≤ ((r : ℤ) : ℚ) := by exact_mod_cast hr1
  have hmain : fToI16 (fclamp (fround (FVal.fin m)) (-32768) 32767) =
      max (-32768) (min 32767 (ratTrunc (max (-32768) (min ((r : ℤ) : ℚ) 32767)))) := rfl
  rw [min_eq_left hcast1, max_eq_right hcast2, ratTrunc_intCast] at hmain
  rw [hmain]
  omega

theorem abs_clamped_mul (q : ℚ) (h1 : -1 ≤ q) (h2 : q ≤ 1) :
    |q * SAMPLE_MULTIPLIER| ≤ ((32767 : ℤ) : ℚ) := by
  rw [abs_mul]
  unfold SAMPLE_MULTIPLIER
  have h3 : |q| ≤ 1 := abs_le.2 ⟨h1, h2⟩
  have h32 : |(32767 : ℚ)| = 32767 := by norm_num
  rw [h32]
  push_cast
  nlinarith

theorem quantizeOne_fin_eq (q : ℚ) :
    quantizeOne (FVal.fin q) = rustRound (max (-1) (min q 1) * SAMPLE_MULTIPLIER) :=
  fchain_round _ (abs_clamped_mul _ (le_max_left _ _)
    (max_le (by norm_num) (min_le_right _ _)))

theorem quantizeOne_range (v : FVal) :
    -32767 ≤ quantizeOne v ∧ quantizeOne v ≤ 32767 := by
  have hgen : ∀ q : ℚ, -1 ≤ q → q ≤ 1 →
      -32767 ≤ rustRound (q * SAMPLE_MULTIPLIER) ∧
      rustRound (q * SAMPLE_MULTIPLIER) ≤ 32767 := by
    intro q h1 h2
    have := abs_le.1 (abs_rustRound_le (abs_clamped_mul q h1 h2))
    omega
  cases v with
  | nan => decide
  | posInf =>
    have h : quantizeOne FVal.posInf =
        fToI16 (fclamp (fround (FVal.fin (1 * SAMPLE_MULTIPLIER))) (-32768) 32767) := rfl
    rw [h, fchain_round _ (abs_clamped_mul 1 (by norm_num) (by norm_num))]
    exact hgen 1 (by norm_num) (by norm_num)
  | negInf =>
    have h : quantizeOne FVal.negInf =
        fToI16 (fclamp (fround (FVal.fin (-1 * SAMPLE_MULTIPLIER))) (-32768) 32767) := rfl
    rw [h, fchain_round _ (abs_clamped_mul (-1) (by norm_num) (by norm_num))]
    exact hgen (-1) (by norm_num) (by norm_num)
  | fin q =>
    rw [quantizeOne_fin_eq]
    exact hgen _ (le_max_left _ _) (max_le (by norm_num) (min_le_right _ _))

/-- Claim C9: `quantize_to_i16` is total over every f32 input sequence
(modelled as finite rationals plus NaN and the infinities, it is a total
function producing one output per input sample), and every output lies in
[-32767, 32767]; in particular -32768 is never produced, because each sample
is clamped to [-1.0, 1.0] before being multiplied by 32767. -/
theorem quantize_to_i16_total_and_in_range (l : List FVal) :
    (quantize_to_i16 l).length = l.length ∧
    ∀ z ∈ quantize_to_i16 l, -32767 ≤ z ∧ z ≤ 32767 := by
  constructor
  · simp [quantize_to_i16]
  · intro z hz
    rcases List.mem_map.1 hz with ⟨v, _, hv⟩
    rw [← hv]
    exact quantizeOne_range v

/-- Witness for C9 at a concrete input sequence containing NaN, both
infinities and an out-of-range finite sample. -/
theorem quantize_to_i16_total_and_in_range_witness :
    (quantize_to_i16 [FVal.nan, FVal.posInf, FVal.negInf, FVal.fin 2]).length =
      ([FVal.nan, FVal.posInf, FVal.negInf, FVal.fin 2] : List FVal).length ∧
    -32767 ≤ quantizeOne FVal.nan ∧ quantizeOne FVal.nan ≤ 32767 :=
  ⟨(quantize_to_i16_total_and_in_range [FVal.nan, FVal.posInf, FVal.negInf, FVal.fin 2]).1,
   (quantize_to_i16_total_and_in_range [FVal.nan, FVal.posInf, FVal.negInf, FVal.fin 2]).2
     (quantizeOne FVal.nan)
     (List.mem_map_of_mem quantizeOne (by simp))⟩

/-- Claim C8: for every valid signed 16-bit sample x, quantizing its
normalization recovers x to within one least-significant bit:
|quantize(normalize(x)) - x| ≤ 1. -/
theorem quantize_normalize_roundtrip (x : ℤ)
    (hlo : -32768 ≤ x) (hhi : x ≤ 32767) :
    |quantizeOne (FVal.fin (normalizeSample x)) - x| ≤ 1 := by
  have hpos : (0 : ℚ) < 32768 := by norm_num
  have hq2 : normalizeSample x ≤ 1 := by
    unfold normalizeSample SAMPLE_DIVISOR
    rw [div_le_one hpos]
    have : ((x : ℚ)) ≤ ((32767 : ℤ) : ℚ) := by exact_mod_cast hhi
    push_cast at this ⊢
    linarith
  have hq1 : -1 ≤ normalizeSample x := by
    unfold normalizeSample SAMPLE_DIVISOR
    rw [le_div_iff hpos]
    have : (((-32768 : ℤ)) : ℚ) ≤ (x : ℚ) := by exact_mod_cast hlo
    push_cast at this ⊢
    linarith
  rw [quantizeOne_fin_eq, min_eq_left hq2, max_eq_right hq1]
  set s := normalizeSample x * SAMPLE_MULTIPLIER with hs
  have hsx : |s - (x : ℚ)| ≤ 1 := by
    have hval : s - (x : ℚ) = -(x : ℚ) / 32768 := by
      rw [hs]
      unfold normalizeSample SAMPLE_DIVISOR SAMPLE_MULTIPLIER
      ring
    rw [hval, abs_div, abs_neg]
    have habs32768 : |(32768 : ℚ)| = 32768 := by norm_num
    rw [habs32768, div_le_one hpos]
    have hxb : |x| ≤ 32768 := abs_le.2 ⟨by omega, by omega⟩
    have : ((|x| : ℤ) : ℚ) ≤ ((32768 : ℤ) : ℚ) := by exact_mod_cast hxb
    rw [Int.cast_abs] at this
    push_cast at this ⊢
    linarith
  have hr := rustRound_dist s
  have key : |(rustRound s : ℚ) - (x : ℚ)| ≤ 3 / 2 := by
    calc |(rustRound s : ℚ) - (x : ℚ)|
        = |((rustRound s : ℚ) - s) + (s - (x : ℚ))| := by ring_nf
    _ ≤ |(rustRound s : ℚ) - s| + |s - (x : ℚ)| := abs_add _ _
    _ ≤ 1 / 2 + 1 := add_le_add hr hsx
    _ = 3 / 2 := by norm_num
  have hlt : |rustRound s - x| < 2 := by
    have hcast : (((|rustRound s - x| : ℤ)) : ℚ) < ((2 : ℤ) : ℚ) := by
      rw [Int.cast_abs]
      push_cast
      push_cast at key
      linarith
    exact_mod_cast hcast
  omega

/-- Witness for C8 at the extreme sample x = -32768. -/
theorem quantize_normalize_roundtrip_witness :
    |quantizeOne (FVal.fin (normalizeSample (-32768))) - (-32768)| ≤ 1 :=
  quantize_normalize_roundtrip (-32768) (by decide) (by decide)

/- ============================================================
   List getD helpers
   ============================================================ -/

theorem getD_set_self {α : Type} (l : List α) (i : ℕ) (a d : α) (h : i < l.length) :
    (l.set i a).getD i d = a := by
  simp [List.getD_eq_getElem?_getD, List.getElem?_set_self h]

theorem getD_set_ne {α : Type} (l : List α) (i j : ℕ) (a d : α) (h : i ≠ j) :
    (l.set i a).getD j d = l.getD j d := by
  simp [List.getD_eq_getElem?_getD, List.getElem?_set_ne h]

theorem getD_map_range {α : Type} (f : ℕ → α) (n k : ℕ) (d : α) (hk : k < n) :
    ((List.range n).map f).getD k d = f k := by
  rw [List.getD_eq_getElem?_getD, List.getElem?_map, List.getElem?_range hk]
  rfl

theorem getD_of_length_le {α : Type} (l : List α) (i : ℕ) (d : α) (h : l.length ≤ i) :
    l.getD i d = d := by
  rw [List.getD_eq_getElem?_getD, List.getElem?_eq_none h]
  rfl

/- ============================================================
   next_power_of_two: least power of two above the argument
   ============================================================ -/

theorem nextPow2Aux_isPow (fuel : ℕ) : ∀ n power : ℕ, Nat.isPowerOfTwo power →
    Nat.isPowerOfTwo (nextPow2Aux fuel n power) := by
  induction fuel with
  | zero => intro n power h; exact h
  | succ fuel ih =>
    intro n power h
    unfold nextPow2Aux
    split
    · exact ih n _ (Nat.mul2_isPowerOfTwo_of_isPowerOfTwo h)
    · exact h

theorem le_nextPow2Aux (fuel : ℕ) : ∀ n power : ℕ, 0 < power →
    n ≤ power * 2 ^ fuel → n ≤ nextPow2Aux fuel n power := by
  induction fuel with
  | zero =>
    intro n power _ hcap
    simpa [nextPow2Aux] using hcap
  | succ fuel ih =>
    intro n power hpos hcap
    unfold nextPow2Aux
    split
    · refine ih n (power * 2) (by positivity) ?_
      calc n ≤ power * 2 ^ (fuel + 1) := hcap
      _ = power * 2 * 2 ^ fuel := by ring
    · next h => omega

theorem pow2_mul2_le_of_lt {a b : ℕ} (ha : Nat.isPowerOfTwo a)
    (hb : Nat.isPowerOfTwo b) (h : a < b) : a * 2 ≤ b := by
  obtain ⟨i, rfl⟩ := ha
  obtain ⟨j, rfl⟩ := hb
  have hij : i < j := by
    by_contra hc
    push_neg at hc
    exact absurd h (not_lt.2 (Nat.pow_le_pow_right (by norm_num) hc))
  calc 2 ^ i * 2 = 2 ^ (i + 1) := by ring
  _ ≤ 2 ^ j := Nat.pow_le_pow_right (by norm_num) (by omega)

theorem nextPow2Aux_le (fuel : ℕ) : ∀ n power m : ℕ, Nat.isPowerOfTwo power →
    Nat.isPowerOfTwo m → power ≤ m → n ≤ m → nextPow2Aux fuel n power ≤ m := by
  induction fuel with
  | zero => intro n power m _ _ hpm _; exact hpm
  | succ fuel ih =>
    intro n power m hpow hm hpm hnm
    unfold nextPow2Aux
    split
    · next hlt =>
      exact ih n _ m (Nat.mul2_isPowerOfTwo_of_isPowerOfTwo hpow) hm
        (pow2_mul2_le_of_lt hpow hm (lt_of_lt_of_le hlt hnm)) hnm
    · exact hpm

theorem next_power_of_two_isPow (n : ℕ) : Nat.isPowerOfTwo (next_power_of_two n) :=
  nextPow2Aux_isPow n n 1 Nat.one_isPowerOfTwo

theorem le_next_power_of_two (n : ℕ) : n ≤ next_power_of_two n := by
  refine le_nextPow2Aux n n 1 one_pos ?_
  have := Nat.lt_two_pow n
  omega

theorem next_power_of_two_le (n m : ℕ) (hm : Nat.isPowerOfTwo m) (hnm : n ≤ m) :
    next_power_of_two n ≤ m :=
  nextPow2Aux_le n n 1 m Nat.one_isPowerOfTwo hm (Nat.pos_of_isPowerOfTwo hm) hnm

/- ============================================================
   Frame and transform length facts
   ============================================================ -/

theorem frameLen_pos (sr : ℕ) : 1 ≤ frameLen sr := by
  unfold frameLen
  have h : (1 : ℤ) ≤ max (rustRound ((sr : ℚ) * WATERMARK_FRAME_DURATION)) 1 :=
    le_max_right _ _
  omega

theorem frameLen_le_fftLen (sr : ℕ) : frameLen sr ≤ fftLen sr :=
  le_trans (le_next_power_of_two _) (le_max_left _ _)

theorem two_le_fftLen (sr : ℕ) : 2 ≤ fftLen sr := le_max_right _ _

theorem fftLen_isPow (sr : ℕ) : Nat.isPowerOfTwo (fftLen sr) := by
  unfold fftLen
  obtain ⟨k, hk⟩ := next_power_of_two_isPow (frameLen sr)
  rw [hk]
  cases k with
  | zero =>
    have : max (2 ^ 0) 2 = 2 := by norm_num
    rw [this]
    exact ⟨1, by norm_num⟩
  | succ k =>
    have h2 : 2 ≤ 2 ^ (k + 1) := by
      calc (2 : ℕ) = 2 ^ 1 := rfl
      _ ≤ 2 ^ (k + 1) := Nat.pow_le_pow_right (by norm_num) (by omega)
    rw [max_eq_left h2]
    exact ⟨k + 1, rfl⟩

theorem fftLen_even (sr : ℕ) : fftLen sr % 2 = 0 := by
  obtain ⟨k, hk⟩ := fftLen_isPow sr
  have h2 := two_le_fftLen sr
  have hkpos : k ≠ 0 := by
    intro h0
    rw [h0] at hk
    omega
  have : (2 : ℕ) ∣ 2 ^ k := dvd_pow_self 2 hkpos
  omega

theorem fftLen_min (sr : ℕ) (m : ℕ) (hm : Nat.isPowerOfTwo m) (h2 : 2 ≤ m)
    (hf : frameLen sr ≤ m) : fftLen sr ≤ m :=
  max_le (next_power_of_two_le _ _ hm hf) h2

theorem padTo_length (L : ℕ) (c : List ℚ) (h : c.length ≤ L) :
    (padTo L c).length = L := by
  simp [padTo]
  omega

/- ============================================================
   Frame loop and chunk lemmas
   ============================================================ -/

theorem drop_cons_flen (flen : ℕ) (hf : 1 ≤ flen) (x : ℚ) (rest : List ℚ) :
    rest.drop (flen - 1) = (x :: rest).drop flen := by
  cases flen with
  | zero => omega
  | succ m => simp [List.drop_succ_cons]

theorem frameLoopAux_congr (p : List ℚ → List ℚ) (flen : ℕ) :
    ∀ f₁ f₂ (l : List ℚ), l.length ≤ f₁ → l.length ≤ f₂ →
      frameLoopAux p flen f₁ l = frameLoopAux p flen f₂ l := by
  intro f₁
  induction f₁ with
  | zero =>
    intro f₂ l h1 _
    have : l = [] := List.eq_nil_of_length_eq_zero (by omega)
    subst this
    cases f₂ <;> rfl
  | succ f ih =>
    intro f₂ l h1 h2
    cases l with
    | nil => cases f₂ <;> rfl
    | cons x rest =>
      cases f₂ with
      | zero => simp at h2
      | succ f₂ =>
        show p ((x :: rest).take flen) ++ frameLoopAux p flen f (rest.drop (flen - 1)) =
          p ((x :: rest).take flen) ++ frameLoopAux p flen f₂ (rest.drop (flen - 1))
        congr 1
        have hd : (rest.drop (flen - 1)).length ≤ rest.length := by
          simp [List.length_drop]
        refine ih f₂ _ ?_ ?_
        · simp at h1
          omega
        · simp at h2
          omega

theorem frameLoop_cons (p : List ℚ → List ℚ) (flen : ℕ) (x : ℚ) (rest : List ℚ) :
    frameLoop p flen (x :: rest) =
      p ((x :: rest).take flen) ++ frameLoop p flen (rest.drop (flen - 1)) := by
  unfold frameLoop
  show p ((x :: rest).take flen) ++ frameLoopAux p flen rest.length (rest.drop (flen - 1)) = _
  congr 1
  refine frameLoopAux_congr p flen rest.length _ _ ?_ (le_refl _)
  simp [List.length_drop]

theorem chunksOfAux_congr (flen : ℕ) :
    ∀ f₁ f₂ (l : List ℚ), l.length ≤ f₁ → l.length ≤ f₂ →
      chunksOfAux flen f₁ l = chunksOfAux flen f₂ l := by
  intro f₁
  induction f₁ with
  | zero =>
    intro f₂ l h1 _
    have : l = [] := List.eq_nil_of_length_eq_zero (by omega)
    subst this
    cases f₂ <;> rfl
  | succ f ih =>
    intro f₂ l h1 h2
    cases l with
    | nil => cases f₂ <;> rfl
    | cons x rest =>
      cases f₂ with
      | zero => simp at h2
      | succ f₂ =>
        show (x :: rest).take flen :: chunksOfAux flen f (rest.drop (flen - 1)) =
          (x :: rest).take flen :: chunksOfAux flen f₂ (rest.drop (flen - 1))
        congr 1
        refine ih f₂ _ ?_ ?_
        · simp at h1
          simp [List.length_drop]
          omega
        · simp at h2
          simp [List.length_drop]
          omega

theorem chunksOf_cons (flen : ℕ) (x : ℚ) (rest : List ℚ) :
    chunksOf flen (x :: rest) =
      (x :: rest).take flen :: chunksOf flen (rest.drop (flen - 1)) := by
  unfold chunksOf
  show (x :: rest).take flen :: chunksOfAux flen rest.length (rest.drop (flen - 1)) = _
  congr 1
  refine chunksOfAux_congr flen rest.length _ _ ?_ (le_refl _)
  simp [List.length_drop]

theorem concat_chunksOf (flen : ℕ) (hf : 1 ≤ flen) :
    ∀ n (l : List ℚ), l.length ≤ n → concatAll (chunksOf flen l) = l := by
  intro n
  induction n with
  | zero =>
    intro l h
    have : l = [] := List.eq_nil_of_length_eq_zero (by omega)
    subst this
    rfl
  | succ n ih =>
    intro l h
    cases l with
    | nil => rfl
    | cons x rest =>
      rw [chunksOf_cons]
      show (x :: rest).take flen ++ concatAll (chunksOf flen (rest.drop (flen - 1))) =
        x :: rest
      rw [ih (rest.drop (flen - 1)) (by simp [List.length_drop]; simp at h; omega)]
      rw [drop_cons_flen flen hf x rest]
      exact List.take_append_drop flen (x :: rest)

theorem frameLoop_eq_concat (p : List ℚ → List ℚ) (flen : ℕ) :
    ∀ n (l : List ℚ), l.length ≤ n →
      frameLoop p flen l = concatAll ((chunksOf flen l).map p) := by
  intro n
  induction n with
  | zero =>
    intro l h
    have : l = [] := List.eq_nil_of_length_eq_zero (by omega)
    subst this
    rfl
  | succ n ih =>
    intro l h
    cases l with
    | nil => rfl
    | cons x rest =>
      rw [frameLoop_cons, chunksOf_cons]
      show p ((x :: rest).take flen) ++ frameLoop p flen (rest.drop (flen - 1)) =
        concatAll (p ((x :: rest).take flen) :: (chunksOf flen (rest.drop (flen - 1))).map p)
      show _ = p ((x :: rest).take flen) ++ concatAll ((chunksOf flen (rest.drop (flen - 1))).map p)
      congr 1
      refine ih _ ?_
      simp [List.length_drop]
      simp at h
      omega

theorem chunksOf_mem_spec (flen : ℕ) (hf : 1 ≤ flen) :
    ∀ n (l : List ℚ) c, l.length ≤ n → c ∈ chunksOf flen l →
      c.length ≤ flen ∧ c ≠ [] := by
  intro n
  induction n with
  | zero =>
    intro l c h hc
    have : l = [] := List.eq_nil_of_length_eq_zero (by omega)
    subst this
    simp [chunksOf, chunksOfAux] at hc
  | succ n ih =>
    intro l c h hc
    cases l with
    | nil => simp [chunksOf, chunksOfAux] at hc
    | cons x rest =>
      rw [chunksOf_cons] at hc
      rcases List.mem_cons.1 hc with hc0 | hcr
      · subst hc0
        constructor
        · simp [List.length_take]
        · cases flen with
          | zero => omega
          | succ m => simp [List.take_succ_cons]
      · refine ih (rest.drop (flen - 1)) c ?_ hcr
        simp [List.length_drop]
        simp at h
        omega

theorem chunksOf_nil_iff (flen : ℕ) (l : List ℚ) :
    chunksOf flen l = [] ↔ l = [] := by
  cases l with
  | nil => simp [chunksOf, chunksOfAux]
  | cons x rest =>
    rw [chunksOf_cons]
    simp

theorem chunksOf_getD_full (flen : ℕ) (hf : 1 ≤ flen) :
    ∀ n (l : List ℚ) k, l.length ≤ n → k + 1 < (chunksOf flen l).length →
      ((chunksOf flen l).getD k []).length = flen := by
  intro n
  induction n with
  | zero =>
    intro l k h hk
    have : l = [] := List.eq_nil_of_length_eq_zero (by omega)
    subst this
    simp [chunksOf, chunksOfAux] at hk
  | succ n ih =>
    intro l k h hk
    cases l with
    | nil => simp [chunksOf, chunksOfAux] at hk
    | cons x rest =>
      rw [chunksOf_cons] at hk ⊢
      cases k with
      | zero =>
        have hnonnil : chunksOf flen (rest.drop (flen - 1)) ≠ [] := by
          intro hcon
          rw [hcon] at hk
          simp at hk
        have hdrop : rest.drop (flen - 1) ≠ [] := by
          intro hcon
          exact hnonnil (by rw [hcon]; rfl)
        have hlen : flen - 1 < rest.length := by
          by_contra hc
          push_neg at hc
          exact hdrop (List.drop_eq_nil_of_le hc)
        show ((x :: rest).take flen).length = flen
        rw [List.length_take]
        simp
        omega
      | succ k =>
        show ((chunksOf flen (rest.drop (flen - 1))).getD k []).length = flen
        refine ih (rest.drop (flen - 1)) k ?_ ?_
        · simp [List.length_drop]
          simp at h
          omega
        · simp at hk
          omega

/- ============================================================
   Claim theorems: C10 and C6
   ============================================================ -/

/-- Claim C10: `embed_watermark_fft` terminates on every finite buffer: the
frame length is at least 1 sample, so each iteration of the frame loop (shown
by its unfolding on a nonempty buffer) advances past a nonempty chunk and
strictly shrinks the remaining buffer. -/
theorem embed_watermark_fft_terminates (f : List ℚ → List (ℚ × ℚ))
    (inv : List (ℚ × ℚ) → List ℚ) (bits : List ℕ) (sr : ℕ) (x : ℚ)
    (rest : List ℚ) :
    1 ≤ frameLen sr ∧
    embed_watermark_fft f inv (x :: rest) bits sr =
      processFrame f inv bits (fftLen sr) ((x :: rest).take (frameLen sr)) ++
        embed_watermark_fft f inv ((x :: rest).drop (frameLen sr)) bits sr ∧
    ((x :: rest).drop (frameLen sr)).length < (x :: rest).length := by
  refine ⟨frameLen_pos sr, ?_, ?_⟩
  · unfold embed_watermark_fft
    rw [frameLoop_cons, drop_cons_flen (frameLen sr) (frameLen_pos sr)]
  · rw [List.length_drop]
    have := frameLen_pos sr
    simp
    omega

/-- Claim C6: the frame length is round(sample_rate × 0.02) clamped to at
least 1; the transform length is the smallest power of two that is ≥ the
frame length and ≥ 2; and a forward transform satisfying the realfft output
contract produces exactly ⌊fft_len/2⌋+1 bins on every padded frame. -/
theorem frame_and_transform_lengths (sr : ℕ) (forward : List ℚ → List (ℚ × ℚ))
    (hF : ∀ v, (forward v).length = v.length / 2 + 1) :
    frameLen sr = (max (rustRound ((sr : ℚ) * WATERMARK_FRAME_DURATION)) 1).toNat ∧
    1 ≤ frameLen sr ∧
    Nat.isPowerOfTwo (fftLen sr) ∧
    2 ≤ fftLen sr ∧
    frameLen sr ≤ fftLen sr ∧
    (∀ m, Nat.isPowerOfTwo m → 2 ≤ m → frameLen sr ≤ m → fftLen sr ≤ m) ∧
    (∀ chunk : List ℚ, chunk.length ≤ fftLen sr →
      (forward (padTo (fftLen sr) chunk)).length = fftLen sr / 2 + 1) := by
  refine ⟨rfl, frameLen_pos sr, fftLen_isPow sr, two_le_fftLen sr,
    frameLen_le_fftLen sr, fftLen_min sr, ?_⟩
  intro chunk hc
  rw [hF, padTo_length _ _ hc]

theorem toyForward_length (v : List ℚ) : (toyForward v).length = v.length / 2 + 1 := by
  simp [toyForward]

theorem frameLen_8000 : frameLen 8000 = 160 := by
  unfold frameLen WATERMARK_FRAME_DURATION
  have h : ((8000 : ℕ) : ℚ) * (1 / 50) = ((160 : ℤ) : ℚ) := by norm_num
  rw [h, rustRound_intCast]
  omega

theorem fftLen_8000 : fftLen 8000 = 256 := by
  unfold fftLen
  rw [frameLen_8000]
  decide

/-- Witness for C6 at sample rate 8000 (the 8 kHz input of the repository),
with the concrete contract-satisfying transform. -/
theorem frame_and_transform_lengths_witness :
    2 ≤ fftLen 8000 ∧ frameLen 8000 ≤ fftLen 8000 ∧ fftLen 8000 ≤ 256 ∧
    (toyForward (padTo (fftLen 8000) (List.replicate 160 (0 : ℚ)))).length =
      fftLen 8000 / 2 + 1 := by
  have T := frame_and_transform_lengths 8000 toyForward toyForward_length
  refine ⟨T.2.2.2.1, T.2.2.2.2.1, ?_, ?_⟩
  · refine T.2.2.2.2.2.1 256 ⟨8, by norm_num⟩ (by norm_num) ?_
    rw [frameLen_8000]
    norm_num
  · refine T.2.2.2.2.2.2 (List.replicate 160 (0 : ℚ)) ?_
    rw [List.length_replicate, fftLen_8000]
    norm_num

/- ============================================================
   embedFrame characterization
   ============================================================ -/

theorem foldl_embedStep_length (bits : List ℕ) (idxs : List ℕ) :
    ∀ s : List (ℚ × ℚ), (idxs.foldl (embedStep bits) s).length = s.length := by
  induction idxs with
  | nil => intro s; rfl
  | cons i is ih =>
    intro s
    rw [List.foldl_cons, ih]
    simp [embedStep]

theorem embedFrame_length (bits : List ℕ) (s : List (ℚ × ℚ)) :
    (embedFrame bits s).length = s.length :=
  foldl_embedStep_length bits _ s

theorem foldl_range_embed_getD (bits : List ℕ) (s : List (ℚ × ℚ)) :
    ∀ k, k ≤ s.length - START_BIN → ∀ j,
      ((List.range k).foldl (embedStep bits) s).getD j (0, 0) =
        if START_BIN ≤ j ∧ j < START_BIN + k then
          ((s.getD j (0, 0)).1 * scaleOf (bits.getD (j - START_BIN) 0),
           (s.getD j (0, 0)).2 * scaleOf (bits.getD (j - START_BIN) 0))
        else s.getD j (0, 0) := by
  intro k
  induction k with
  | zero =>
    intro _ j
    rw [if_neg (by omega)]
    rfl
  | succ k ih =>
    intro hk j
    rw [List.range_succ, List.foldl_append, List.foldl_cons, List.foldl_nil]
    set prev := (List.range k).foldl (embedStep bits) s with hprevdef
    have hprevlen : prev.length = s.length := foldl_embedStep_length bits _ s
    have hsteprw : embedStep bits prev k = prev.set (START_BIN + k)
        ((prev.getD (START_BIN + k) (0, 0)).1 * scaleOf (bits.getD k 0),
         (prev.getD (START_BIN + k) (0, 0)).2 * scaleOf (bits.getD k 0)) := rfl
    rw [hsteprw]
    by_cases hj : j = START_BIN + k
    · subst hj
      rw [getD_set_self _ _ _ _ (by rw [hprevlen]; omega)]
      have hp := ih (by omega) (START_BIN + k)
      rw [if_neg (by omega)] at hp
      rw [hp, if_pos (by omega)]
      have hsub : START_BIN + k - START_BIN = k := by omega
      rw [hsub]
    · rw [getD_set_ne _ _ _ _ _ (fun hcon => hj hcon.symm)]
      rw [ih (by omega) j]
      by_cases hcond : START_BIN ≤ j ∧ j < START_BIN + k
      · rw [if_pos hcond, if_pos (by omega)]
      · rw [if_neg hcond, if_neg (by omega)]

theorem embedFrame_getD (bits : List ℕ) (s : List (ℚ × ℚ)) (j : ℕ) :
    (embedFrame bits s).getD j (0, 0) =
      if START_BIN ≤ j ∧ j < START_BIN + min bits.length (s.length - START_BIN) then
        ((s.getD j (0, 0)).1 * scaleOf (bits.getD (j - START_BIN) 0),
         (s.getD j (0, 0)).2 * scaleOf (bits.getD (j - START_BIN) 0))
      else s.getD j (0, 0) := by
  unfold embedFrame
  exact foldl_range_embed_getD bits s _ (min_le_right _ _) j

/- ============================================================
   Claim theorem: C3
   ============================================================ -/

/-- Claim C3: within one frame's spectrum the modulator multiplies both
components of bin `START_BIN + i` by 1 + strength (= 1.15) when bit i is 1
and by 1 - strength (= 0.85) when bit i is 0, for every
i < min(bit count, usable bins); bins below the start index and bins beyond
the consumed bits are untouched. -/
theorem embedFrame_spec (bits : List ℕ) (s : List (ℚ × ℚ)) :
    (1 + WATERMARK_STRENGTH = (23 : ℚ) / 20 ∧
      1 - WATERMARK_STRENGTH = (17 : ℚ) / 20) ∧
    (∀ i, i < min bits.length (s.length - START_BIN) →
      (embedFrame bits s).getD (START_BIN + i) (0, 0) =
        ((s.getD (START_BIN + i) (0, 0)).1 *
          (if bits.getD i 0 = 1 then 1 + WATERMARK_STRENGTH else 1 - WATERMARK_STRENGTH),
         (s.getD (START_BIN + i) (0, 0)).2 *
          (if bits.getD i 0 = 1 then 1 + WATERMARK_STRENGTH else 1 - WATERMARK_STRENGTH))) ∧
    (∀ j, j < START_BIN → (embedFrame bits s).getD j (0, 0) = s.getD j (0, 0)) ∧
    (∀ j, START_BIN + min bits.length (s.length - START_BIN) ≤ j →
      (embedFrame bits s).getD j (0, 0) = s.getD j (0, 0)) := by
  refine ⟨⟨by norm_num [WATERMARK_STRENGTH], by norm_num [WATERMARK_STRENGTH]⟩, ?_, ?_, ?_⟩
  · intro i hi
    rw [embedFrame_getD, if_pos (by omega)]
    have hsub : START_BIN + i - START_BIN = i := by omega
    rw [hsub]
    rfl
  · intro j hj
    rw [embedFrame_getD, if_neg (by omega)]
  · intro j hj
    rw [embedFrame_getD, if_neg (by omega)]

/-- Witness for C3: with the pilot bits and a 12-bin all-ones spectrum,
bin 10 (bit 0 of the pilot, value 0) is rescaled and bin 0 is untouched. -/
theorem embedFrame_spec_witness :
    (embedFrame PILOT_PATTERN (List.replicate 12 ((1 : ℚ), (1 : ℚ)))).getD
        (START_BIN + 0) (0, 0) =
      (((List.replicate 12 ((1 : ℚ), (1 : ℚ))).getD (START_BIN + 0) (0, 0)).1 *
        (if PILOT_PATTERN.getD 0 0 = 1 then 1 + WATERMARK_STRENGTH
          else 1 - WATERMARK_STRENGTH),
       ((List.replicate 12 ((1 : ℚ), (1 : ℚ))).getD (START_BIN + 0) (0, 0)).2 *
        (if PILOT_PATTERN.getD 0 0 = 1 then 1 + WATERMARK_STRENGTH
          else 1 - WATERMARK_STRENGTH)) ∧
    (embedFrame PILOT_PATTERN (List.replicate 12 ((1 : ℚ), (1 : ℚ)))).getD 0 (0, 0) =
      (List.replicate 12 ((1 : ℚ), (1 : ℚ))).getD 0 (0, 0) :=
  ⟨(embedFrame_spec PILOT_PATTERN _).2.1 0 (by decide),
   (embedFrame_spec PILOT_PATTERN _).2.2.1 0 (by decide)⟩

/- ============================================================
   Frame-pipeline length lemmas and claim C7
   ============================================================ -/

theorem toyInverse_length (s : List (ℚ × ℚ)) :
    (toyInverse s).length = 2 * (s.length - 1) := by
  simp [toyInverse]

theorem processFrame_length (f : List ℚ → List (ℚ × ℚ)) (inv : List (ℚ × ℚ) → List ℚ)
    (bits : List ℕ) (L : ℕ) (c : List ℚ)
    (hF : ∀ v, (f v).length = v.length / 2 + 1)
    (hI : ∀ s, (inv s).length = 2 * (s.length - 1))
    (hc : c.length ≤ L) (hL : L % 2 = 0) :
    (processFrame f inv bits L c).length = c.length := by
  unfold processFrame
  rw [List.length_map, List.length_take]
  have h2 : (inv (embedFrame bits (f (padTo L c)))).length = L := by
    rw [hI, embedFrame_length, hF, padTo_length _ _ hc]
    omega
  rw [h2]
  omega

theorem concatAll_length_map (p : List ℚ → List ℚ) :
    ∀ cs : List (List ℚ), (∀ c ∈ cs, (p c).length = c.length) →
      (concatAll (cs.map p)).length = (concatAll cs).length := by
  intro cs
  induction cs with
  | nil => intro _; rfl
  | cons c rest ih =>
    intro h
    show (p c ++ concatAll (rest.map p)).length = (c ++ concatAll rest).length
    rw [List.length_append, List.length_append,
      h c (List.mem_cons_self c rest), ih (fun d hd => h d (List.mem_cons_of_mem c hd))]

/-- Claim C7: `embed_watermark_fft` splits its input into consecutive
non-overlapping frames of `frame_len` samples covering the buffer with no
gaps (only the final frame may be shorter), zero-pads each frame to the
transform length, divides every inverse-transform result by the transform
length exactly once, and returns as many samples as it was given. -/
theorem embed_watermark_fft_framing (f : List ℚ → List (ℚ × ℚ))
    (inv : List (ℚ × ℚ) → List ℚ) (norm : List ℚ) (bits : List ℕ) (sr : ℕ)
    (hF : ∀ v, (f v).length = v.length / 2 + 1)
    (hI : ∀ s, (inv s).length = 2 * (s.length - 1)) :
    embed_watermark_fft f inv norm bits sr =
      concatAll ((chunksOf (frameLen sr) norm).map
        (processFrame f inv bits (fftLen sr))) ∧
    concatAll (chunksOf (frameLen sr) norm) = norm ∧
    (∀ c ∈ chunksOf (frameLen sr) norm, c.length ≤ frameLen sr ∧
      processFrame f inv bits (fftLen sr) c =
        ((inv (embedFrame bits (f (c ++ List.replicate (fftLen sr - c.length) 0)))).take
            c.length).map (fun x => x / (fftLen sr : ℚ))) ∧
    (∀ k, k + 1 < (chunksOf (frameLen sr) norm).length →
      ((chunksOf (frameLen sr) norm).getD k []).length = frameLen sr) ∧
    (embed_watermark_fft f inv norm bits sr).length = norm.length := by
  have hflen := frameLen_pos sr
  have heq := frameLoop_eq_concat (processFrame f inv bits (fftLen sr)) (frameLen sr)
    norm.length norm (le_refl _)
  have hconcat := concat_chunksOf (frameLen sr) hflen norm.length norm (le_refl _)
  refine ⟨heq, hconcat, ?_, ?_, ?_⟩
  · intro c hc
    exact ⟨(chunksOf_mem_spec _ hflen _ _ c (le_refl _) hc).1, rfl⟩
  · intro k hk
    exact chunksOf_getD_full _ hflen _ _ k (le_refl _) hk
  · show (embed_watermark_fft f inv norm bits sr).length = norm.length
    unfold embed_watermark_fft
    rw [heq]
    rw [concatAll_length_map _ _ (fun c hc =>
      processFrame_length f inv bits (fftLen sr) c hF hI
        (le_trans (chunksOf_mem_spec _ hflen _ _ c (le_refl _) hc).1
          (frameLen_le_fftLen sr))
        (fftLen_even sr))]
    rw [hconcat]

/-- Witness for C7 with the concrete contract-satisfying transforms on a
short buffer. -/
theorem embed_watermark_fft_framing_witness :
    concatAll (chunksOf (frameLen 8000) (List.replicate 3 (0 : ℚ))) =
      List.replicate 3 (0 : ℚ) ∧
    (embed_watermark_fft toyForward toyInverse (List.replicate 3 (0 : ℚ)) [] 8000).length =
      (List.replicate 3 (0 : ℚ)).length :=
  ⟨(embed_watermark_fft_framing toyForward toyInverse (List.replicate 3 0) [] 8000
      toyForward_length toyInverse_length).2.1,
   (embed_watermark_fft_framing toyForward toyInverse (List.replicate 3 0) [] 8000
      toyForward_length toyInverse_length).2.2.2.2⟩

/- ============================================================
   More getD helpers and concrete-length facts
   ============================================================ -/

theorem getD_drop {α : Type} (l : List α) (n k : ℕ) (d : α) :
    (l.drop n).getD k d = l.getD (n + k) d := by
  rw [List.getD_eq_getElem?_getD, List.getD_eq_getElem?_getD, List.getElem?_drop]

theorem getD_append_right {α : Type} (a b : List α) (k : ℕ) (d : α) :
    (a ++ b).getD (a.length + k) d = b.getD k d := by
  rw [List.getD_eq_getElem?_getD, List.getD_eq_getElem?_getD,
    List.getElem?_append_right (by omega : a.length ≤ a.length + k)]
  have h : a.length + k - a.length = k := by omega
  rw [h]

theorem getD_map_lt {α β : Type} (f : α → β) (l : List α) (k : ℕ) (d : β) (e : α)
    (hk : k < l.length) : (l.map f).getD k d = f (l.getD k e) := by
  simp [List.getD_eq_getElem?_getD, List.getElem?_map, List.getElem?_eq_getElem hk]

theorem getD_map_nil (p : List ℚ → List ℚ) (hp : p [] = []) (l : List (List ℚ))
    (k : ℕ) : (l.map p).getD k [] = p (l.getD k []) := by
  rcases lt_or_ge k l.length with hk | hk
  · exact getD_map_lt p l k [] [] hk
  · rw [getD_of_length_le _ _ _ (by simpa using hk), getD_of_length_le _ _ _ hk, hp]

theorem toyForward_getD (v : List ℚ) (k : ℕ) (hk : k < v.length / 2 + 1) :
    (toyForward v).getD k (0, 0) =
      if 2 * k + 1 < v.length then (v.getD (2 * k) 0, v.getD (2 * k + 1) 0)
      else (0, 0) :=
  getD_map_range _ _ _ _ hk

theorem toyInverse_getD (s : List (ℚ × ℚ)) (t : ℕ) (ht : t < 2 * (s.length - 1)) :
    (toyInverse s).getD t 0 =
      ((2 * (s.length - 1) : ℕ) : ℚ) *
        (if t % 2 = 0 then (s.getD (t / 2) (0, 0)).1 else (s.getD (t / 2) (0, 0)).2) :=
  getD_map_range _ _ _ _ ht

theorem frameLen_6400 : frameLen 6400 = 128 := by
  unfold frameLen WATERMARK_FRAME_DURATION
  have h : ((6400 : ℕ) : ℚ) * (1 / 50) = ((128 : ℤ) : ℚ) := by norm_num
  rw [h, rustRound_intCast]
  omega

theorem fftLen_6400 : fftLen 6400 = 128 := by
  unfold fftLen
  rw [frameLen_6400]
  decide

/- ============================================================
   Chunk shapes for one- and two-frame buffers
   ============================================================ -/

theorem chunksOf_single (flen : ℕ) (hf : 1 ≤ flen) (m : List ℚ) (h1 : m ≠ [])
    (h2 : m.length ≤ flen) : chunksOf flen m = [m] := by
  cases m with
  | nil => exact absurd rfl h1
  | cons y r =>
    rw [chunksOf_cons, drop_cons_flen flen hf, List.drop_eq_nil_of_le h2,
      List.take_of_length_le h2]
    rfl

theorem chunksOf_two (flen : ℕ) (hf : 1 ≤ flen) (l : List ℚ) (h1 : flen < l.length)
    (h2 : l.length ≤ 2 * flen) : chunksOf flen l = [l.take flen, l.drop flen] := by
  cases l with
  | nil => simp at h1
  | cons x rest =>
    simp only [List.length_cons] at h1 h2
    rw [chunksOf_cons, drop_cons_flen flen hf]
    rw [chunksOf_single flen hf ((x :: rest).drop flen) ?_ ?_]
    · intro hcon
      have hlen := congrArg List.length hcon
      simp only [List.length_drop, List.length_cons, List.length_nil] at hlen
      omega
    · simp only [List.length_drop, List.length_cons]
      omega

/- ============================================================
   Claim C4: the bit cursor does not advance across frames
   ============================================================ -/

/-- Claim C4 (amended): the modulator receives the same full bit sequence in
every frame (the code indexes `bits[bit_idx]` from 0 in each frame, with no
cross-frame cursor), so two frames with identical sample content produce
identical watermarked output, wherever they occur in the signal. -/
theorem embed_same_bits_each_frame (f : List ℚ → List (ℚ × ℚ))
    (inv : List (ℚ × ℚ) → List ℚ) (norm : List ℚ) (bits : List ℕ) (sr : ℕ)
    (k₁ k₂ : ℕ)
    (h : (chunksOf (frameLen sr) norm).getD k₁ [] =
      (chunksOf (frameLen sr) norm).getD k₂ []) :
    embed_watermark_fft f inv norm bits sr =
      concatAll ((chunksOf (frameLen sr) norm).map
        (processFrame f inv bits (fftLen sr))) ∧
    ((chunksOf (frameLen sr) norm).map (processFrame f inv bits (fftLen sr))).getD k₁ [] =
      ((chunksOf (frameLen sr) norm).map (processFrame f inv bits (fftLen sr))).getD k₂ [] := by
  constructor
  · exact frameLoop_eq_concat _ _ norm.length norm (le_refl _)
  · rw [getD_map_nil _ rfl, getD_map_nil _ rfl, h]

theorem chunksOf_replicate_256 :
    chunksOf 128 (List.replicate 256 (0 : ℚ)) =
      [List.replicate 128 0, List.replicate 128 0] := by
  rw [chunksOf_two 128 (by norm_num) _
    (by rw [List.length_replicate]; norm_num)
    (by rw [List.length_replicate])]
  rw [List.take_replicate, List.drop_replicate]
  norm_num

/-- Witness for the amended C4 at a two-frame silent buffer: frames 0 and 1
have equal content, hence equal watermarked output segments. -/
theorem embed_same_bits_each_frame_witness :
    embed_watermark_fft toyForward toyInverse (List.replicate 256 (0 : ℚ))
        (build_bit_sequence []) 6400 =
      concatAll ((chunksOf (frameLen 6400) (List.replicate 256 (0 : ℚ))).map
        (processFrame toyForward toyInverse (build_bit_sequence []) (fftLen 6400))) ∧
    ((chunksOf (frameLen 6400) (List.replicate 256 (0 : ℚ))).map
        (processFrame toyForward toyInverse (build_bit_sequence []) (fftLen 6400))).getD 0 [] =
      ((chunksOf (frameLen 6400) (List.replicate 256 (0 : ℚ))).map
        (processFrame toyForward toyInverse (build_bit_sequence []) (fftLen 6400))).getD 1 [] :=
  embed_same_bits_each_frame toyForward toyInverse _ _ 6400 0 1
    (by rw [frameLen_6400, chunksOf_replicate_256]; rfl)

theorem padTo_self (L : ℕ) (c : List ℚ) (h : c.length = L) : padTo L c = c := by
  simp [padTo, h]

/-- Counterexample to C4 as stated: at 6400 Hz with the contract-satisfying
transforms, a 256-sample buffer whose only nonzero sample sits in the second
frame.  The 24 pilot+header bits of the empty message fit in the first
frame's 55 usable bins, yet the second frame's spectrum is changed by the
modulator (the code re-embeds the full bit sequence in every frame), and the
pipeline output differs from the input inside the second frame. -/
theorem embed_modifies_later_frames :
    (build_bit_sequence []).length ≤ fftLen 6400 / 2 + 1 - START_BIN ∧
    embedFrame (build_bit_sequence [])
        (toyForward (padTo (fftLen 6400)
          (((List.range 256).map (fun t => if t = 148 then (1 : ℚ) else 0)).drop
            (frameLen 6400)))) ≠
      toyForward (padTo (fftLen 6400)
        (((List.range 256).map (fun t => if t = 148 then (1 : ℚ) else 0)).drop
          (frameLen 6400))) ∧
    (embed_watermark_fft toyForward toyInverse
        ((List.range 256).map (fun t => if t = 148 then (1 : ℚ) else 0))
        (build_bit_sequence []) 6400).getD 148 0 ≠
      ((List.range 256).map (fun t => if t = 148 then (1 : ℚ) else 0)).getD 148 0 := by
  set audio := (List.range 256).map (fun t => if t = 148 then (1 : ℚ) else 0) with haudio
  set bits := build_bit_sequence [] with hbits
  have hbitslen : bits.length = 24 := by rw [hbits]; decide
  have hbits0 : bits.getD 0 0 = 0 := by rw [hbits]; decide
  have haudiolen : audio.length = 256 := by rw [haudio]; simp
  have haudio_getD : ∀ j, j < 256 → audio.getD j 0 = if j = 148 then 1 else 0 := by
    intro j hj
    rw [haudio]
    exact getD_map_range _ _ _ _ hj
  set c2 := audio.drop (frameLen 6400) with hc2
  have hc2' : c2 = audio.drop 128 := by rw [hc2, frameLen_6400]
  have hc2len : c2.length = 128 := by rw [hc2', List.length_drop, haudiolen]
  have hc2getD : ∀ k, c2.getD k 0 = audio.getD (128 + k) 0 := by
    intro k
    rw [hc2', getD_drop]
  have hpad : padTo (fftLen 6400) c2 = c2 := by
    rw [fftLen_6400]
    exact padTo_self 128 c2 hc2len
  set S2 := toyForward (padTo (fftLen 6400) c2) with hS2
  have hS2len : S2.length = 65 := by
    rw [hS2, toyForward_length, hpad, hc2len]
  have hS2_10 : S2.getD 10 (0, 0) = (1, 0) := by
    rw [hS2, hpad, toyForward_getD c2 10 (by rw [hc2len]; norm_num),
      if_pos (by rw [hc2len]; norm_num), hc2getD, hc2getD,
      haudio_getD 148 (by norm_num), haudio_getD 149 (by norm_num)]
    norm_num
  set S2' := embedFrame bits S2 with hS2'
  have hS2'len : S2'.length = 65 := by rw [hS2', embedFrame_length, hS2len]
  have hmod : S2'.getD 10 (0, 0) = (17 / 20, 0) := by
    rw [hS2', embedFrame_getD]
    have hcond : START_BIN ≤ 10 ∧
        10 < START_BIN + min bits.length (S2.length - START_BIN) := by
      rw [hbitslen, hS2len]
      norm_num [START_BIN]
    rw [if_pos hcond]
    have h0 : (10 : ℕ) - START_BIN = 0 := by norm_num [START_BIN]
    rw [h0, hbits0, hS2_10]
    norm_num [scaleOf, WATERMARK_STRENGTH]
  refine ⟨?_, ?_, ?_⟩
  · rw [hbitslen, fftLen_6400]
    norm_num [START_BIN]
  · intro heq
    have h10 := congrArg (fun l => l.getD 10 ((0 : ℚ), (0 : ℚ))) heq
    simp only at h10
    rw [hmod, hS2_10] at h10
    have hfst := congrArg Prod.fst h10
    norm_num at hfst
  · have hrhs : audio.getD 148 0 = 1 := by
      rw [haudio_getD 148 (by norm_num)]
      norm_num
    rw [hrhs]
    have hchunks : chunksOf (frameLen 6400) audio = [audio.take 128, audio.drop 128] := by
      rw [frameLen_6400]
      exact chunksOf_two 128 (by norm_num) audio (by rw [haudiolen]; norm_num)
        (by rw [haudiolen])
    have hembed : embed_watermark_fft toyForward toyInverse audio bits 6400 =
        concatAll ((chunksOf (frameLen 6400) audio).map
          (processFrame toyForward toyInverse bits (fftLen 6400))) :=
      frameLoop_eq_concat _ _ audio.length audio (le_refl _)
    rw [hembed, hchunks, ← hc2']
    have hconcat2 : concatAll ([audio.take 128, c2].map
        (processFrame toyForward toyInverse bits (fftLen 6400))) =
      processFrame toyForward toyInverse bits (fftLen 6400) (audio.take 128) ++
        (processFrame toyForward toyInverse bits (fftLen 6400) c2 ++ []) := rfl
    rw [hconcat2, List.append_nil]
    have hc1len : (processFrame toyForward toyInverse bits (fftLen 6400)
        (audio.take 128)).length = 128 := by
      rw [processFrame_length toyForward toyInverse bits (fftLen 6400) (audio.take 128)
        toyForward_length toyInverse_length
        (by rw [List.length_take, haudiolen, fftLen_6400]; norm_num)
        (fftLen_even 6400)]
      rw [List.length_take, haudiolen]
      norm_num
    have h148 : (148 : ℕ) = (processFrame toyForward toyInverse bits (fftLen 6400)
        (audio.take 128)).length + 20 := by
      rw [hc1len]
    rw [h148, getD_append_right]
    have hp2 : processFrame toyForward toyInverse bits (fftLen 6400) c2 =
        ((toyInverse S2').take c2.length).map
          (fun x => x / ((fftLen 6400 : ℕ) : ℚ)) := rfl
    rw [hp2, fftLen_6400, hc2len]
    have hinvlen : (toyInverse S2').length = 128 := by
      rw [toyInverse_length, hS2'len]
    rw [List.take_of_length_le (le_of_eq hinvlen)]
    rw [getD_map_lt _ _ _ _ 0 (by rw [hinvlen]; norm_num)]
    rw [toyInverse_getD S2' 20 (by rw [hS2'len]; norm_num)]
    rw [hS2'len]
    rw [show (20 : ℕ) / 2 = 10 from by norm_num]
    rw [if_pos (show (20 : ℕ) % 2 = 0 from by norm_num)]
    rw [hmod]
    norm_num

/- ============================================================
   getD/replicate helpers for the decoder analysis
   ============================================================ -/

theorem getD_replicate {α : Type} (n k : ℕ) (a d : α) :
    (List.replicate n a).getD k d = if k < n then a else d := by
  rw [List.getD_eq_getElem?_getD, List.getElem?_replicate]
  split <;> rfl

theorem getD_replicate_self {α : Type} (n k : ℕ) (a : α) :
    (List.replicate n a).getD k a = a := by
  rw [getD_replicate]
  split <;> rfl

theorem getD_append_left {α : Type} (a b : List α) (k : ℕ) (d : α)
    (h : k < a.length) : (a ++ b).getD k d = a.getD k d := by
  rw [List.getD_eq_getElem?_getD, List.getD_eq_getElem?_getD,
    List.getElem?_append_left h]

theorem eq_of_getD {α : Type} (l1 l2 : List α) (d : α) (hlen : l1.length = l2.length)
    (h : ∀ k, k < l1.length → l1.getD k d = l2.getD k d) : l1 = l2 := by
  apply List.ext_getElem hlen
  intro i h1 h2
  have hk := h i h1
  rw [List.getD_eq_getElem?_getD, List.getD_eq_getElem?_getD,
    List.getElem?_eq_getElem h1, List.getElem?_eq_getElem h2] at hk
  simpa using hk

theorem chunksOf_eq_cons (flen : ℕ) (hf : 1 ≤ flen) (l : List ℚ) (hne : l ≠ []) :
    chunksOf flen l = l.take flen :: chunksOf flen (l.drop flen) := by
  cases l with
  | nil => exact absurd rfl hne
  | cons x rest => rw [chunksOf_cons, drop_cons_flen flen hf]

theorem frameLoop_unfold (p : List ℚ → List ℚ) (flen : ℕ) (hf : 1 ≤ flen)
    (l : List ℚ) (hne : l ≠ []) :
    frameLoop p flen l = p (l.take flen) ++ frameLoop p flen (l.drop flen) := by
  cases l with
  | nil => exact absurd rfl hne
  | cons x rest => rw [frameLoop_cons, drop_cons_flen flen hf]

theorem frameLoop_processFrame_length (f : List ℚ → List (ℚ × ℚ))
    (inv : List (ℚ × ℚ) → List ℚ) (bits : List ℕ) (sr : ℕ)
    (hF : ∀ v, (f v).length = v.length / 2 + 1)
    (hI : ∀ s, (inv s).length = 2 * (s.length - 1)) (l : List ℚ) :
    (frameLoop (processFrame f inv bits (fftLen sr)) (frameLen sr) l).length =
      l.length := by
  rw [frameLoop_eq_concat _ _ l.length l (le_refl _)]
  rw [concatAll_length_map _ _ (fun c hc =>
    processFrame_length f inv bits (fftLen sr) c hF hI
      (le_trans (chunksOf_mem_spec _ (frameLen_pos sr) _ _ c (le_refl _) hc).1
        (frameLen_le_fftLen sr))
      (fftLen_even sr))]
  rw [concat_chunksOf _ (frameLen_pos sr) l.length l (le_refl _)]

/- ============================================================
   Zero signals stay zero through the toy pipeline
   ============================================================ -/

theorem toyForward_replicate_zero (n : ℕ) :
    toyForward (List.replicate n (0 : ℚ)) =
      List.replicate (n / 2 + 1) ((0 : ℚ), (0 : ℚ)) := by
  apply eq_of_getD _ _ ((0 : ℚ), (0 : ℚ))
  · rw [toyForward_length, List.length_replicate, List.length_replicate]
  · intro k hk
    rw [toyForward_length, List.length_replicate] at hk
    rw [toyForward_getD _ _ (by rwa [List.length_replicate])]
    simp only [getD_replicate_self, List.length_replicate]
    split <;> rfl

theorem embedFrame_replicate_zero (bits : List ℕ) (m : ℕ) :
    embedFrame bits (List.replicate m ((0 : ℚ), (0 : ℚ))) =
      List.replicate m ((0 : ℚ), (0 : ℚ)) := by
  apply eq_of_getD _ _ ((0 : ℚ), (0 : ℚ))
  · rw [embedFrame_length]
  · intro k hk
    rw [embedFrame_getD]
    simp only [getD_replicate_self]
    split
    · norm_num
    · rfl

theorem toyInverse_replicate_zero (m : ℕ) :
    toyInverse (List.replicate m ((0 : ℚ), (0 : ℚ))) =
      List.replicate (2 * (m - 1)) (0 : ℚ) := by
  apply eq_of_getD _ _ (0 : ℚ)
  · rw [toyInverse_length, List.length_replicate, List.length_replicate]
  · intro t ht
    rw [toyInverse_length, List.length_replicate] at ht
    rw [toyInverse_getD _ _ (by rwa [List.length_replicate])]
    simp only [getD_replicate_self, List.length_replicate]
    split <;> norm_num

/- ============================================================
   Claim C1, counterexample: silent audio defeats calibration
   ============================================================ -/

/-- Counterexample to C1 as stated: for silent audio (128 zero samples at
6400 Hz) and the one-byte message "A" (byte 65, 32 bits, well within the 55
usable bins), the watermarked signal is still exactly zero, every bin energy
is zero, the pilot-calibrated threshold degenerates to 0, every bin
classifies as 0, and the decoder returns the empty message instead of "A". -/
theorem decode_encode_fails_on_silence :
    (build_bit_sequence [65]).length ≤ fftLen 6400 / 2 + 1 - START_BIN ∧
    decode_watermarked toyForward
        (encode toyForward toyInverse (List.replicate 128 0) [65] 6400) 6400 ≠
      some [65] := by
  constructor
  · rw [show (build_bit_sequence [65]).length = 32 from by decide, fftLen_6400]
    decide
  · set bits := build_bit_sequence [65] with hbits
    have hz : List.replicate 128 (0 : ℚ) ≠ [] := by
      intro hcon
      have hlen := congrArg List.length hcon
      rw [List.length_replicate] at hlen
      simp at hlen
    have hch : chunksOf (frameLen 6400) (List.replicate 128 (0 : ℚ)) =
        [List.replicate 128 0] := by
      rw [frameLen_6400]
      exact chunksOf_single 128 (by norm_num) _ hz (by rw [List.length_replicate])
    have hpad0 : padTo (fftLen 6400) (List.replicate 128 (0 : ℚ)) =
        List.replicate 128 0 := by
      rw [fftLen_6400]
      exact padTo_self _ _ (by rw [List.length_replicate])
    have hfwd : toyForward (List.replicate 128 (0 : ℚ)) =
        List.replicate 65 ((0 : ℚ), (0 : ℚ)) := by
      rw [toyForward_replicate_zero]
    have hembed0 : embedFrame bits (List.replicate 65 ((0 : ℚ), (0 : ℚ))) =
        List.replicate 65 ((0 : ℚ), (0 : ℚ)) := embedFrame_replicate_zero bits 65
    have hinv0 : toyInverse (List.replicate 65 ((0 : ℚ), (0 : ℚ))) =
        List.replicate 128 (0 : ℚ) := by
      rw [toyInverse_replicate_zero]
    have hp0 : processFrame toyForward toyInverse bits (fftLen 6400)
        (List.replicate 128 0) = List.replicate 128 0 := by
      show ((toyInverse (embedFrame bits (toyForward (padTo (fftLen 6400)
          (List.replicate 128 0))))).take (List.replicate 128 (0 : ℚ)).length).map
        (fun x => x / ((fftLen 6400 : ℕ) : ℚ)) = _
      rw [hpad0, hfwd, hembed0, hinv0, List.length_replicate, List.take_replicate]
      rw [show min 128 128 = 128 from rfl, List.map_replicate, zero_div]
    have hw : encode toyForward toyInverse (List.replicate 128 0) [65] 6400 =
        List.replicate 128 0 := by
      show frameLoop (processFrame toyForward toyInverse bits (fftLen 6400))
        (frameLen 6400) (List.replicate 128 0) = _
      rw [frameLoop_eq_concat _ _ (List.replicate 128 (0 : ℚ)).length _ (le_refl _), hch]
      show processFrame toyForward toyInverse bits (fftLen 6400)
        (List.replicate 128 0) ++ [] = _
      rw [List.append_nil, hp0]
    rw [hw]
    have hes : decodeEnergies toyForward (List.replicate 128 (0 : ℚ)) 6400 =
        List.replicate 55 0 := by
      unfold decodeEnergies
      rw [hch]
      show frameEnergies toyForward (fftLen 6400) (List.replicate 128 0) ++ [] = _
      rw [List.append_nil]
      unfold frameEnergies
      rw [hpad0, hfwd, List.drop_replicate, List.map_replicate]
      rw [show binEnergy ((0 : ℚ), (0 : ℚ)) = 0 from by norm_num [binEnergy]]
      rw [show (65 : ℕ) - START_BIN = 55 from rfl]
    have hthr : calibrateThreshold (List.replicate 55 (0 : ℚ)) = 0 := by
      unfold calibrateThreshold
      simp only [getD_replicate_self]
      norm_num
    have hdec : decode_watermarked toyForward (List.replicate 128 (0 : ℚ)) 6400 =
        some [] := by
      simp only [decode_watermarked]
      rw [hes, hthr]
      rw [show PILOT_PATTERN.length = 8 from rfl, List.drop_replicate,
        show (55 : ℕ) - 8 = 47 from rfl, List.map_replicate]
      rw [show (if (0 : ℚ) < 0 then (1 : ℕ) else 0) = 0 from by norm_num]
      rw [List.length_replicate]
      rw [if_pos (by norm_num : (16 : ℕ) ≤ 47)]
      rw [List.take_replicate, List.drop_replicate]
      rw [show min 16 47 = 16 from rfl, show (47 : ℕ) - 16 = 31 from rfl]
      rw [show bitsToNat (List.replicate 16 0) = 0 from by decide]
      rw [List.length_replicate]
      rw [if_pos (by norm_num : 8 * 0 ≤ 31)]
      rfl
    rw [hdec]
    intro hcon
    simp at hcon

/- ============================================================
   Bit-sequence indexing lemmas
   ============================================================ -/

theorem getD_take {α : Type} (l : List α) (n k : ℕ) (d : α) (hk : k < n) :
    (l.take n).getD k d = l.getD k d := by
  rw [List.getD_eq_getElem?_getD, List.getD_eq_getElem?_getD, List.getElem?_take,
    if_pos hk]

theorem getD_mem_of_lt {α : Type} (l : List α) (k : ℕ) (d : α) (hk : k < l.length) :
    l.getD k d ∈ l := by
  rw [List.getD_eq_getElem?_getD, List.getElem?_eq_getElem hk]
  simpa using List.getElem_mem hk

theorem natToBitsBE_mem (w n : ℕ) : ∀ b ∈ natToBitsBE w n, b = 0 ∨ b = 1 := by
  intro b hb
  unfold natToBitsBE at hb
  rcases List.mem_map.1 hb with ⟨s, _, hs⟩
  rw [← hs, Nat.and_one_is_mod]
  omega

theorem bytesToBits_mem (m : List ℕ) : ∀ b ∈ bytesToBits m, b = 0 ∨ b = 1 := by
  induction m with
  | nil => intro b hb; simp [bytesToBits] at hb
  | cons x rest ih =>
    intro b hb
    rcases List.mem_append.1 hb with h1 | h2
    · exact natToBitsBE_mem 8 x b h1
    · exact ih b h2

theorem build_bit_mem (m : List ℕ) : ∀ b ∈ build_bit_sequence m, b = 0 ∨ b = 1 := by
  intro b hb
  unfold build_bit_sequence at hb
  rcases List.mem_append.1 hb with h1 | h2
  · rcases List.mem_append.1 h1 with hp | hh
    · exact (by decide : ∀ x ∈ PILOT_PATTERN, x = 0 ∨ x = 1) b hp
    · exact natToBitsBE_mem 16 _ b hh
  · exact bytesToBits_mem m b h2

theorem build_getD_bit (m : List ℕ) (j : ℕ) :
    (build_bit_sequence m).getD j 0 = 0 ∨ (build_bit_sequence m).getD j 0 = 1 := by
  rcases lt_or_ge j (build_bit_sequence m).length with hj | hj
  · exact build_bit_mem m _ (getD_mem_of_lt _ _ _ hj)
  · left
    exact getD_of_length_le _ _ _ hj

theorem build_length (m : List ℕ) :
    (build_bit_sequence m).length = 24 + 8 * m.length := by
  unfold build_bit_sequence
  simp only [List.length_append, natToBitsBE_length, bytesToBits_length]
  have hp : PILOT_PATTERN.length = 8 := rfl
  rw [hp]

theorem pilot_header_length (m : List ℕ) :
    (PILOT_PATTERN ++ natToBitsBE 16 (m.length % 65536)).length = 24 := by
  rw [List.length_append, natToBitsBE_length]
  rfl

theorem build_getD_pilot (m : List ℕ) (j : ℕ) (hj : j < 8) :
    (build_bit_sequence m).getD j 0 = PILOT_PATTERN.getD j 0 := by
  unfold build_bit_sequence
  rw [getD_append_left _ _ _ _ (by rw [pilot_header_length]; omega)]
  rw [getD_append_left _ _ _ _ (by rw [show PILOT_PATTERN.length = 8 from rfl]; omega)]

theorem build_getD_header (m : List ℕ) (j : ℕ) (hj : j < 16) :
    (build_bit_sequence m).getD (8 + j) 0 =
      (natToBitsBE 16 (m.length % 65536)).getD j 0 := by
  unfold build_bit_sequence
  rw [getD_append_left _ _ _ _ (by rw [pilot_header_length]; omega)]
  have h8 : (8 : ℕ) + j = PILOT_PATTERN.length + j := rfl
  rw [h8, getD_append_right]

theorem build_getD_payload (m : List ℕ) (k : ℕ) :
    (build_bit_sequence m).getD (24 + k) 0 = (bytesToBits m).getD k 0 := by
  unfold build_bit_sequence
  have h24 : (24 : ℕ) + k =
      (PILOT_PATTERN ++ natToBitsBE 16 (m.length % 65536)).length + k := by
    rw [pilot_header_length]
  rw [h24, getD_append_right]

theorem bytesToBits_getD (m : List ℕ) :
    ∀ k j, k < m.length → j < 8 →
      (bytesToBits m).getD (8 * k + j) 0 = (natToBitsBE 8 (m.getD k 0)).getD j 0 := by
  induction m with
  | nil => intro k j hk _; simp at hk
  | cons b rest ih =>
    intro k j hk hj
    cases k with
    | zero =>
      show (natToBitsBE 8 b ++ bytesToBits rest).getD (8 * 0 + j) 0 = _
      rw [show 8 * 0 + j = j from by omega]
      rw [getD_append_left _ _ _ _ (by rw [natToBitsBE_length]; omega)]
      rfl
    | succ k =>
      show (natToBitsBE 8 b ++ bytesToBits rest).getD (8 * (k + 1) + j) 0 = _
      have hsplit : 8 * (k + 1) + j = (natToBitsBE 8 b).length + (8 * k + j) := by
        rw [natToBitsBE_length]
        ring
      rw [hsplit, getD_append_right]
      rw [ih k j (by simpa using hk) hj]
      rfl

/- ============================================================
   Toy spectrum recovery: re-transforming the inverse recovers
   the spectrum (bins with a vanishing Nyquist slot)
   ============================================================ -/

theorem toy_spectrum_recovery (S : List (ℚ × ℚ)) (L : ℕ) (hL : 2 ≤ L)
    (hLe : L % 2 = 0) (hSlen : S.length = L / 2 + 1)
    (hlast : S.getD (L / 2) (0, 0) = (0, 0)) :
    toyForward (padTo L ((toyInverse S).map (fun x => x / (L : ℚ)))) = S := by
  have hinvlen : (toyInverse S).length = L := by
    rw [toyInverse_length, hSlen]
    omega
  have hwlen : ((toyInverse S).map (fun x => x / (L : ℚ))).length = L := by
    rw [List.length_map, hinvlen]
  rw [padTo_self _ _ hwlen]
  have hL0 : ((L : ℕ) : ℚ) ≠ 0 := by
    have h : (0 : ℕ) < L := by omega
    exact_mod_cast Nat.pos_iff_ne_zero.1 h
  apply eq_of_getD _ _ ((0 : ℚ), (0 : ℚ))
  · rw [toyForward_length, hwlen, hSlen]
  · intro k hk
    rw [toyForward_length, hwlen] at hk
    rw [toyForward_getD _ _ (by rw [hwlen]; exact hk)]
    by_cases hkL : 2 * k + 1 < L
    · rw [if_pos (by rw [hwlen]; exact hkL)]
      have he : ((toyInverse S).map (fun x => x / (L : ℚ))).getD (2 * k) 0 =
          (S.getD k (0, 0)).1 := by
        rw [getD_map_lt _ _ _ _ 0 (by rw [hinvlen]; omega)]
        rw [toyInverse_getD S (2 * k) (by rw [hSlen]; omega)]
        rw [hSlen, show (2 * (L / 2 + 1 - 1) : ℕ) = L from by omega]
        rw [if_pos (by omega : (2 * k) % 2 = 0)]
        rw [show (2 * k) / 2 = k from by omega]
        rw [mul_comm, mul_div_assoc, div_self hL0, mul_one]
      have ho : ((toyInverse S).map (fun x => x / (L : ℚ))).getD (2 * k + 1) 0 =
          (S.getD k (0, 0)).2 := by
        rw [getD_map_lt _ _ _ _ 0 (by rw [hinvlen]; omega)]
        rw [toyInverse_getD S (2 * k + 1) (by rw [hSlen]; omega)]
        rw [hSlen, show (2 * (L / 2 + 1 - 1) : ℕ) = L from by omega]
        rw [if_neg (by omega : ¬(2 * k + 1) % 2 = 0)]
        rw [show (2 * k + 1) / 2 = k from by omega]
        rw [mul_comm, mul_div_assoc, div_self hL0, mul_one]
      rw [he, ho]
    · rw [if_neg (by rw [hwlen]; exact hkL)]
      have hkeq : k = L / 2 := by omega
      rw [hkeq, hlast]

/- ============================================================
   Claim C1 (amended): round trip under non-degenerate energies
   ============================================================ -/

/-- Claim C1 (amended): decode(encode(audio, message)) recovers the message
whenever the first frame is full, the message fits the usable bins (with a
valid length header and byte-valued payload), re-transforming the
watermarked first frame recovers the embedded spectrum (the defining
property of a transform pair realfft satisfies on full frames), and the
original spectrum carries the same positive energy on every consumed bin —
the non-degeneracy the pilot calibration needs.  The unamended claim fails
on silent audio, where all energies vanish and calibration degenerates. -/
theorem decode_encode_roundtrip
    (forward : List ℚ → List (ℚ × ℚ)) (inverse : List (ℚ × ℚ) → List ℚ)
    (audio : List ℚ) (message : List ℕ) (sr : ℕ) (E : ℚ)
    (hF : ∀ v, (forward v).length = v.length / 2 + 1)
    (hI : ∀ s, (inverse s).length = 2 * (s.length - 1))
    (hbytes : ∀ b ∈ message, b < 256)
    (hmsglen : message.length < 65536)
    (hcap : (build_bit_sequence message).length ≤ fftLen sr / 2 + 1 - START_BIN)
    (haudio : frameLen sr ≤ audio.length)
    (hrec : forward (padTo (fftLen sr)
        (processFrame forward inverse (build_bit_sequence message) (fftLen sr)
          (audio.take (frameLen sr)))) =
      embedFrame (build_bit_sequence message)
        (forward (padTo (fftLen sr) (audio.take (frameLen sr)))))
    (hE : ∀ j, j < (build_bit_sequence message).length →
      binEnergy ((forward (padTo (fftLen sr) (audio.take (frameLen sr)))).getD
        (START_BIN + j) (0, 0)) = E)
    (hEpos : 0 < E) :
    decode_watermarked forward (encode forward inverse audio message sr) sr =
      some message := by
  have h10 : START_BIN = 10 := rfl
  set bits := build_bit_sequence message with hbitsdef
  set c0 := audio.take (frameLen sr) with hc0def
  set S0 := forward (padTo (fftLen sr) c0) with hS0def
  set S1 := embedFrame bits S0 with hS1def
  set w := encode forward inverse audio message sr with hwdef
  have hTlen : bits.length = 24 + 8 * message.length := by
    rw [hbitsdef]
    exact build_length message
  have hflenpos : 1 ≤ frameLen sr := frameLen_pos sr
  have hL2 : 2 ≤ fftLen sr := two_le_fftLen sr
  have hLeven : fftLen sr % 2 = 0 := fftLen_even sr
  have hflenL : frameLen sr ≤ fftLen sr := frameLen_le_fftLen sr
  have hc0len : c0.length = frameLen sr := by
    rw [hc0def, List.length_take]
    omega
  have hS0len : S0.length = fftLen sr / 2 + 1 := by
    rw [hS0def, hF, padTo_length _ _ (by omega)]
  have hS1len : S1.length = fftLen sr / 2 + 1 := by
    rw [hS1def, embedFrame_length, hS0len]
  have husable : bits.length ≤ fftLen sr / 2 + 1 - START_BIN := hcap
  have hane : audio ≠ [] := by
    intro hcon
    rw [hcon] at haudio
    simp at haudio
    omega
  have hwlen : w.length = audio.length := by
    rw [hwdef]
    show (frameLoop (processFrame forward inverse (build_bit_sequence message)
      (fftLen sr)) (frameLen sr) audio).length = audio.length
    exact frameLoop_processFrame_length forward inverse _ sr hF hI audio
  have hwne : w ≠ [] := by
    intro hcon
    rw [hcon] at hwlen
    simp at hwlen
    rw [← hwlen] at haudio
    omega
  have hw1 : w = processFrame forward inverse bits (fftLen sr) c0 ++
      frameLoop (processFrame forward inverse bits (fftLen sr)) (frameLen sr)
        (audio.drop (frameLen sr)) := by
    rw [hwdef]
    show frameLoop (processFrame forward inverse (build_bit_sequence message)
      (fftLen sr)) (frameLen sr) audio = _
    rw [frameLoop_unfold _ _ hflenpos audio hane]
  have hplen : (processFrame forward inverse bits (fftLen sr) c0).length =
      frameLen sr := by
    rw [processFrame_length forward inverse bits (fftLen sr) c0 hF hI
      (by omega) hLeven]
    exact hc0len
  have hwtake : w.take (frameLen sr) = processFrame forward inverse bits (fftLen sr) c0 := by
    rw [hw1]
    exact List.take_left' hplen
  set es := decodeEnergies forward w sr with hesdef
  have hes1 : es = (S1.drop START_BIN).map binEnergy ++
      concatAll ((chunksOf (frameLen sr) (w.drop (frameLen sr))).map
        (frameEnergies forward (fftLen sr))) := by
    rw [hesdef]
    unfold decodeEnergies
    rw [chunksOf_eq_cons (frameLen sr) hflenpos w hwne, hwtake]
    show frameEnergies forward (fftLen sr)
        (processFrame forward inverse bits (fftLen sr) c0) ++ _ = _
    unfold frameEnergies
    rw [hrec]
  have hfelen : ((S1.drop START_BIN).map binEnergy).length =
      fftLen sr / 2 + 1 - START_BIN := by
    rw [List.length_map, List.length_drop, hS1len]
  have heslen : fftLen sr / 2 + 1 - START_BIN ≤ es.length := by
    rw [hes1, List.length_append, hfelen]
    omega
  have hesval : ∀ j, j < bits.length →
      es.getD j 0 = scaleOf (bits.getD j 0) * scaleOf (bits.getD j 0) * E := by
    intro j hj
    rw [hes1]
    rw [getD_append_left _ _ _ _ (by rw [hfelen]; omega)]
    rw [getD_map_lt binEnergy _ _ _ ((0 : ℚ), (0 : ℚ))
      (by rw [List.length_drop, hS1len]; omega)]
    rw [getD_drop]
    have hS1get : S1.getD (START_BIN + j) (0, 0) =
        ((S0.getD (START_BIN + j) (0, 0)).1 * scaleOf (bits.getD j 0),
         (S0.getD (START_BIN + j) (0, 0)).2 * scaleOf (bits.getD j 0)) := by
      rw [hS1def, embedFrame_getD]
      have hmin : min bits.length (S0.length - START_BIN) = bits.length :=
        min_eq_left (by rw [hS0len]; omega)
      rw [if_pos (by rw [hmin]; omega)]
      rw [show START_BIN + j - START_BIN = j from by omega]
    rw [hS1get]
    have hEj := hE j hj
    unfold binEnergy at hEj ⊢
    have hexp : (S0.getD (START_BIN + j) (0, 0)).1 * scaleOf (bits.getD j 0) *
          ((S0.getD (START_BIN + j) (0, 0)).1 * scaleOf (bits.getD j 0)) +
        (S0.getD (START_BIN + j) (0, 0)).2 * scaleOf (bits.getD j 0) *
          ((S0.getD (START_BIN + j) (0, 0)).2 * scaleOf (bits.getD j 0)) =
        scaleOf (bits.getD j 0) * scaleOf (bits.getD j 0) *
          ((S0.getD (START_BIN + j) (0, 0)).1 * (S0.getD (START_BIN + j) (0, 0)).1 +
           (S0.getD (START_BIN + j) (0, 0)).2 * (S0.getD (START_BIN + j) (0, 0)).2) := by
      ring
    rw [hexp, hEj]
  have hpilotbits : ∀ j, j < 8 → bits.getD j 0 = PILOT_PATTERN.getD j 0 := by
    intro j hj
    rw [hbitsdef]
    exact build_getD_pilot message j hj
  have hbit01 : ∀ j, bits.getD j 0 = 0 ∨ bits.getD j 0 = 1 := by
    intro j
    rw [hbitsdef]
    exact build_getD_bit message j
  have hs0 : scaleOf 0 * scaleOf 0 = 289 / 400 := by
    norm_num [scaleOf, WATERMARK_STRENGTH]
  have hs1 : scaleOf 1 * scaleOf 1 = 529 / 400 := by
    norm_num [scaleOf, WATERMARK_STRENGTH]
  have hthr : calibrateThreshold es = (409 / 400) * E := by
    unfold calibrateThreshold
    rw [hesval 0 (by omega), hesval 1 (by omega), hesval 2 (by omega),
      hesval 3 (by omega), hesval 4 (by omega), hesval 5 (by omega),
      hesval 6 (by omega), hesval 7 (by omega)]
    rw [hpilotbits 0 (by omega), hpilotbits 1 (by omega), hpilotbits 2 (by omega),
      hpilotbits 3 (by omega), hpilotbits 4 (by omega), hpilotbits 5 (by omega),
      hpilotbits 6 (by omega), hpilotbits 7 (by omega)]
    rw [show PILOT_PATTERN.getD 0 0 = 0 from rfl, show PILOT_PATTERN.getD 1 0 = 1 from rfl,
      show PILOT_PATTERN.getD 2 0 = 0 from rfl, show PILOT_PATTERN.getD 3 0 = 1 from rfl,
      show PILOT_PATTERN.getD 4 0 = 0 from rfl, show PILOT_PATTERN.getD 5 0 = 1 from rfl,
      show PILOT_PATTERN.getD 6 0 = 0 from rfl, show PILOT_PATTERN.getD 7 0 = 1 from rfl]
    rw [hs0, hs1]
    ring
  set stream := (es.drop PILOT_PATTERN.length).map
    (fun e => if calibrateThreshold es < e then (1 : ℕ) else 0) with hstreamdef
  have hstreamlen : stream.length = es.length - 8 := by
    rw [hstreamdef, List.length_map, List.length_drop]
    rfl
  have hstreamval : ∀ j, 8 + j < bits.length → stream.getD j 0 = bits.getD (8 + j) 0 := by
    intro j hj
    rw [hstreamdef]
    rw [getD_map_lt _ _ _ _ 0
      (by rw [List.length_drop, show PILOT_PATTERN.length = 8 from rfl]; omega)]
    rw [show PILOT_PATTERN.length = 8 from rfl, getD_drop]
    rw [hesval (8 + j) hj, hthr]
    rcases hbit01 (8 + j) with h0 | h1
    · rw [h0, hs0]
      rw [if_neg (by nlinarith)]
    · rw [h1, hs1]
      rw [if_pos (by nlinarith)]
  have h16 : 16 ≤ stream.length := by omega
  have hheader : stream.take 16 = natToBitsBE 16 message.length := by
    apply eq_of_getD _ _ 0
    · rw [List.length_take, natToBitsBE_length]
      omega
    · intro k hk
      rw [List.length_take] at hk
      rw [getD_take _ _ _ _ (by omega)]
      rw [hstreamval k (by omega)]
      rw [hbitsdef]
      rw [build_getD_header message k (by omega)]
      rw [show message.length % 65536 = message.length from Nat.mod_eq_of_lt hmsglen]
  have hn : bitsToNat (stream.take 16) = message.length := by
    rw [hheader, bitsToNat_natToBitsBE]
    exact Nat.mod_eq_of_lt (by omega)
  have hpay : 8 * message.length ≤ (stream.drop 16).length := by
    rw [List.length_drop]
    omega
  have hbyte : ∀ k, k < message.length →
      bitsToNat (((stream.drop 16).drop (8 * k)).take 8) = message.getD k 0 := by
    intro k hk
    have hseg : ((stream.drop 16).drop (8 * k)).take 8 =
        natToBitsBE 8 (message.getD k 0) := by
      apply eq_of_getD _ _ 0
      · rw [List.length_take, natToBitsBE_length, List.length_drop, List.length_drop]
        omega
      · intro j hj
        rw [List.length_take] at hj
        rw [getD_take _ _ _ _ (by omega)]
        rw [getD_drop, getD_drop]
        rw [hstreamval (16 + (8 * k + j)) (by omega)]
        rw [show (8 : ℕ) + (16 + (8 * k + j)) = 24 + (8 * k + j) from by ring]
        rw [hbitsdef, build_getD_payload message (8 * k + j)]
        rw [bytesToBits_getD message k j hk (by omega)]
    rw [hseg, bitsToNat_natToBitsBE]
    have hmem : message.getD k 0 ∈ message := getD_mem_of_lt _ _ _ hk
    exact Nat.mod_eq_of_lt (lt_of_lt_of_le (hbytes _ hmem) (by norm_num))
  have hdec : decode_watermarked forward w sr =
      (if 16 ≤ stream.length then
        if 8 * bitsToNat (stream.take 16) ≤ (stream.drop 16).length then
          some ((List.range (bitsToNat (stream.take 16))).map
            (fun k => bitsToNat (((stream.drop 16).drop (8 * k)).take 8)))
        else none
      else none) := rfl
  rw [hdec, if_pos h16, hn, if_pos hpay]
  congr 1
  apply List.ext_getElem
  · rw [List.length_map, List.length_range]
  · intro i h1 h2
    rw [List.length_map, List.length_range] at h1
    rw [List.getElem_map, List.getElem_range]
    rw [hbyte i h1]
    rw [List.getD_eq_getElem?_getD, List.getElem?_eq_getElem h2]
    rfl

/-- Witness for the amended C1: 128 samples of a unit comb at 6400 Hz give
every usable bin energy 1, and the one-byte message "A" decodes exactly. -/
theorem decode_encode_roundtrip_witness :
    decode_watermarked toyForward
      (encode toyForward toyInverse
        ((List.range 128).map (fun t => if t % 2 = 0 then (1 : ℚ) else 0)) [65] 6400)
      6400 = some [65] := by
  set audio := (List.range 128).map (fun t => if t % 2 = 0 then (1 : ℚ) else 0)
    with haudiodef
  have haudiolen : audio.length = 128 := by
    rw [haudiodef, List.length_map, List.length_range]
  have hc0 : audio.take (frameLen 6400) = audio := by
    rw [frameLen_6400]
    exact List.take_of_length_le (by rw [haudiolen])
  have hpadA : padTo (fftLen 6400) audio = audio := by
    rw [fftLen_6400]
    exact padTo_self _ _ haudiolen
  have hbitslenW : (build_bit_sequence [65]).length = 32 := by decide
  have haudio_getD : ∀ t, t < 128 → audio.getD t 0 = if t % 2 = 0 then 1 else 0 := by
    intro t ht
    rw [haudiodef]
    exact getD_map_range _ _ _ _ ht
  have hS0Wlen : (toyForward audio).length = 65 := by
    rw [toyForward_length, haudiolen]
  have hS1Wlen : (embedFrame (build_bit_sequence [65]) (toyForward audio)).length = 65 := by
    rw [embedFrame_length, hS0Wlen]
  have hlast : (embedFrame (build_bit_sequence [65]) (toyForward audio)).getD 64
      (0, 0) = (0, 0) := by
    rw [embedFrame_getD]
    rw [if_neg (by rw [hbitslenW, hS0Wlen]; norm_num [START_BIN])]
    rw [toyForward_getD audio 64 (by rw [haudiolen]; norm_num)]
    rw [if_neg (by rw [haudiolen]; norm_num)]
  have hinvlenW : (toyInverse (embedFrame (build_bit_sequence [65])
      (toyForward audio))).length = 128 := by
    rw [toyInverse_length, hS1Wlen]
  have hpF : processFrame toyForward toyInverse (build_bit_sequence [65])
      (fftLen 6400) audio =
      (toyInverse (embedFrame (build_bit_sequence [65]) (toyForward audio))).map
        (fun x => x / ((fftLen 6400 : ℕ) : ℚ)) := by
    show ((toyInverse (embedFrame (build_bit_sequence [65])
        (toyForward (padTo (fftLen 6400) audio)))).take audio.length).map
      (fun x => x / ((fftLen 6400 : ℕ) : ℚ)) = _
    rw [hpadA]
    rw [List.take_of_length_le (by rw [hinvlenW, haudiolen])]
  refine decode_encode_roundtrip toyForward toyInverse audio [65] 6400 1
    toyForward_length toyInverse_length (by decide) (by decide)
    (by rw [hbitslenW, fftLen_6400]; decide)
    (by rw [frameLen_6400, haudiolen])
    ?_ ?_ (by norm_num)
  · rw [hc0, hpF, hpadA]
    exact toy_spectrum_recovery _ (fftLen 6400) (two_le_fftLen 6400) (fftLen_even 6400)
      (by rw [hS1Wlen, fftLen_6400])
      (by rw [show fftLen 6400 / 2 = 64 from by rw [fftLen_6400]]; exact hlast)
  · intro j hj
    rw [hbitslenW] at hj
    rw [hc0, hpadA]
    rw [toyForward_getD audio (START_BIN + j)
      (by rw [haudiolen]; simp only [START_BIN]; omega)]
    rw [if_pos (by rw [haudiolen]; simp only [START_BIN]; omega)]
    rw [haudio_getD (2 * (START_BIN + j)) (by simp only [START_BIN]; omega),
      haudio_getD (2 * (START_BIN + j) + 1) (by simp only [START_BIN]; omega)]
    rw [if_pos (by simp only [START_BIN]; omega), if_neg (by simp only [START_BIN]; omega)]
    norm_num [binEnergy]
